import Mathlib

/-!
Verification development for the typed key-value engine in src/kvstore.c
(functions kvstore_put_value, kvstore_get_value, kvstore_delete_key,
kvstore_clear, kvstore_save, kvstore_load, the FNV-1a hash, the arena
allocator and the bucket iterator).  All definitions below are shallow
embeddings of the C source: byte strings become lists of naturals
(each element one byte), the chained hash table becomes a list of
chains, machine integers become naturals reduced mod 2 ^ 32 or 2 ^ 64
where the C arithmetic wraps, and file contents become byte lists.
-/

set_option maxHeartbeats 1000000

namespace KV

/-- KVSTORE_MAX_STRING_SIZE = 1024 * 1024 (1 MiB). -/
def maxStringSize : Nat := 1048576

/-- MAGIC_NUMBER 0x4B56DB02 from kvstore.c. -/
def magicNumber : Nat := 0x4B56DB02

/-- KVSTORE_MIN_CAPACITY. -/
def minCapacity : Nat := 16

/-- KVSTORE_DEFAULT_CAPACITY. -/
def defaultCapacity : Nat := 1024

/-- ARENA_BLOCK_SIZE (64 KiB). -/
def arenaBlockSize : Nat := 65536

/-- sizeof(arena_block_t) on an LP64 host: next pointer, size, used. -/
def arenaHeaderSize : Nat := 24

/-- sizeof(kvstore_entry_t) on an LP64 host (key 16, value 24, hash 4,
padding 4, next 8).  The exact number never influences table behaviour;
it only feeds the arena usage counters. -/
def entrySize : Nat := 56

/-- align_size: round up to a multiple of ARENA_ALIGNMENT = 8.  The C
writes (size + 7) & ~7, which for naturals is (n + 7) / 8 * 8. -/
def alignSize (n : Nat) : Nat := (n + 7) / 8 * 8

/-- One arena_block_t: the payload capacity and the bump offset.  The
raw bytes themselves are not modelled; entries keep their own data. -/
structure ArenaBlock where
  size : Nat
  used : Nat
deriving DecidableEq

/-- arena_t: the retired block list, the current block, and the two
usage counters. -/
structure Arena where
  blocks : List ArenaBlock
  current : Option ArenaBlock
  totalAllocated : Nat
  totalUsed : Nat
deriving DecidableEq

/-- arena_init: zero the structure. -/
def arenaInit : Arena := ⟨[], none, 0, 0⟩

/-- arena_create_block: a fresh block whose capacity is
ARENA_BLOCK_SIZE - header, enlarged when the request does not fit. -/
def arenaCreateBlock (minSize : Nat) : ArenaBlock :=
  if arenaBlockSize - arenaHeaderSize < minSize then ⟨minSize, 0⟩
  else ⟨arenaBlockSize - arenaHeaderSize, 0⟩

/-- arena_alloc: bump-allocate from the current block, or link a new
block in front and allocate from it.  Allocation is modelled as always
succeeding (malloc failure is out of scope); the returned pointer is
not modelled, only the state change. -/
def arenaAlloc (a : Arena) (n : Nat) : Arena :=
  if n = 0 then a
  else
    let sz := alignSize n
    match a.current with
    | some c =>
      if c.used + sz ≤ c.size then
        { a with current := some ⟨c.size, c.used + sz⟩, totalUsed := a.totalUsed + sz }
      else
        let nb := arenaCreateBlock sz
        { blocks := c :: a.blocks, current := some ⟨nb.size, sz⟩,
          totalAllocated := a.totalAllocated + nb.size + arenaHeaderSize,
          totalUsed := a.totalUsed + sz }
    | none =>
      let nb := arenaCreateBlock sz
      { a with current := some ⟨nb.size, sz⟩,
               totalAllocated := a.totalAllocated + nb.size + arenaHeaderSize,
               totalUsed := a.totalUsed + sz }

/-- arena_clear: mark every block unused; the current block stays
current (the pointer shuffle in the C source is a net no-op on the
block order) and no memory is returned. -/
def arenaClear (a : Arena) : Arena :=
  { a with blocks := a.blocks.map (fun b => ⟨b.size, 0⟩),
           current := a.current.map (fun c => ⟨c.size, 0⟩),
           totalUsed := 0 }

/-- hash_key: FNV-1a 32-bit over the key bytes, offset basis
0x811c9dc5, prime 0x01000193, wrapping multiplication mod 2 ^ 32.
The (unsigned char) cast is the mod 256 on each byte. -/
def hashKey (data : List Nat) : Nat :=
  data.foldl (fun h b => ((h ^^^ (b % 256)) * 0x01000193) % 4294967296) 0x811c9dc5

/-- kvstore_error_t. -/
inductive KVError where
  | ok
  | nullPointer
  | invalidKey
  | capacityFull
  | keyNotFound
  | memory
  | ioErr
  | invalidFormat
  | stringTooLarge
  | typeMismatch
  | invalidType
deriving DecidableEq

/-- kvstore_value_t: the tagged union.  String and binary payloads are
byte lists (kvstore_string_t with data = the list, len = its length;
the NUL terminator the C appends is not part of len).  int64 and
double are carried as their 8-byte patterns (a natural below 2 ^ 64);
for double this is the IEEE 754 bit pattern, so equality is
bit-for-bit. -/
inductive KValue where
  | nullv
  | str (l : List Nat)
  | int64 (bits : Nat)
  | double (bits : Nat)
  | boolv (b : Bool)
  | binary (l : List Nat)
deriving DecidableEq

/-- The values representable by the C kvstore_value_t with payloads
that satisfy the put preconditions: string and binary payloads of at
most 1 MiB, 64-bit patterns in range. -/
def ValueOK : KValue → Prop
  | .nullv => True
  | .str l => l.length ≤ maxStringSize
  | .int64 b => b < 2 ^ 64
  | .double b => b < 2 ^ 64
  | .boolv _ => True
  | .binary l => l.length ≤ maxStringSize

instance : DecidablePred ValueOK := fun v =>
  match v with
  | .nullv => inferInstanceAs (Decidable True)
  | .str _ => inferInstanceAs (Decidable (_ ≤ _))
  | .int64 _ => inferInstanceAs (Decidable (_ < _))
  | .double _ => inferInstanceAs (Decidable (_ < _))
  | .boolv _ => inferInstanceAs (Decidable True)
  | .binary _ => inferInstanceAs (Decidable (_ ≤ _))

instance {ε α : Type} [DecidableEq ε] [DecidableEq α] : DecidableEq (Except ε α)
  | .error a, .error b =>
    if h : a = b then .isTrue (by rw [h]) else .isFalse (by simp [h])
  | .error _, .ok _ => .isFalse (by simp)
  | .ok _, .error _ => .isFalse (by simp)
  | .ok a, .ok b =>
    if h : a = b then .isTrue (by rw [h]) else .isFalse (by simp [h])

/-- kvstore_string_create_arena: reject payloads above 1 MiB (the C
returns the zeroed string, data = NULL, modelled as none); otherwise
bump-allocate len + 1 bytes and copy.  arena_alloc never fails in the
model. -/
def stringCreateArena (a : Arena) (data : List Nat) : Option (List Nat) × Arena :=
  if maxStringSize < data.length then (none, a)
  else (some data, arenaAlloc a (data.length + 1))

/-- kvstore_string_create (heap variant): same length check, payload
copied to the heap; the heap is not part of the modelled state. -/
def stringCreateHeap (data : List Nat) : Option (List Nat) :=
  if maxStringSize < data.length then none else some data

/-- kvstore_value_create_string_arena: a failed string create (len
over 1 MiB) silently downgrades the value to the NULL variant. -/
def valueCreateStringArena (a : Arena) (data : List Nat) : KValue × Arena :=
  match stringCreateArena a data with
  | (none, a2) => (.nullv, a2)
  | (some l, a2) => (.str l, a2)

/-- kvstore_value_create_binary_arena. -/
def valueCreateBinaryArena (a : Arena) (data : List Nat) : KValue × Arena :=
  match stringCreateArena a data with
  | (none, a2) => (.nullv, a2)
  | (some l, a2) => (.binary l, a2)

/-- kvstore_value_create_string (heap): same downgrade on oversized
payloads. -/
def valueCreateString (data : List Nat) : KValue :=
  match stringCreateHeap data with
  | none => .nullv
  | some l => .str l

/-- kvstore_value_create_binary (heap). -/
def valueCreateBinary (data : List Nat) : KValue :=
  match stringCreateHeap data with
  | none => .nullv
  | some l => .binary l

/-- kvstore_value_copy_arena: deep copy; string/binary payloads are
re-created in the arena (with the oversize downgrade), scalars are
copied by value. -/
def valueCopyArena (a : Arena) (v : KValue) : KValue × Arena :=
  match v with
  | .nullv => (.nullv, a)
  | .str l => valueCreateStringArena a l
  | .int64 b => (.int64 b, a)
  | .double b => (.double b, a)
  | .boolv b => (.boolv b, a)
  | .binary l => valueCreateBinaryArena a l

/-- The value part of kvstore_value_copy_arena, which does not depend
on the arena state: the copy is the value itself except that an
oversized string/binary payload degrades to the NULL variant. -/
def copyResult : KValue → KValue
  | .str l => if maxStringSize < l.length then .nullv else .str l
  | .binary l => if maxStringSize < l.length then .nullv else .binary l
  | v => v

/-- kvstore_entry_t: key bytes, value, cached hash.  The next pointer
is the list structure of the chain. -/
structure Entry where
  key : List Nat
  value : KValue
  hash : Nat
deriving DecidableEq

/-- struct kvstore: the bucket array (bucket_count is the list
length), entry_count, and the arena.  max_load_factor is always
KVSTORE_DEFAULT_LOAD_FACTOR = 0.75 and is kept implicit. -/
structure KStore where
  buckets : List (List Entry)
  entryCount : Nat
  arena : Arena
deriving DecidableEq

/-- All live entries: the concatenation of the chains in bucket
order. -/
def allEntries (s : KStore) : List Entry := s.buckets.flatten

/-- The keys of all live entries. -/
def keysOf (s : KStore) : List (List Nat) := (allEntries s).map (·.key)

/-- The entry comparison from find_entry and kvstore_delete_key:
cached hash, key length and key bytes all equal (length plus memcmp
collapses to list equality). -/
def entryMatches (hash : Nat) (key : List Nat) (e : Entry) : Bool :=
  e.hash == hash && e.key == key

/-- find_entry: walk the chain of bucket hash mod B.  A NULL or empty
key finds nothing. -/
def findEntry (s : KStore) (key : List Nat) (hash : Nat) : Option Entry :=
  if key = [] then none
  else (s.buckets.getD (hash % s.buckets.length) []).find? (entryMatches hash key)

/-- The in-place value overwrite of the update path of
kvstore_put_value: the first matching entry of the chain gets the new
value. -/
def replaceFirstValue (hash : Nat) (key : List Nat) (v : KValue) : List Entry → List Entry
  | [] => []
  | e :: rest =>
    if entryMatches hash key e then ⟨e.key, v, e.hash⟩ :: rest
    else e :: replaceFirstValue hash key v rest

/-- The chain unlink of kvstore_delete_key: remove the first matching
entry, none when the walk falls off the chain. -/
def removeFirstEntry (hash : Nat) (key : List Nat) : List Entry → Option (List Entry)
  | [] => none
  | e :: rest =>
    if entryMatches hash key e then some rest
    else (removeFirstEntry hash key rest).map (fun r => e :: r)

/-- The relink step inside resize_hash_table: one entry is pushed
(pointer relink, no reallocation) onto the head of new bucket
entry.hash mod new_bucket_count. -/
def bucketPush (newCount : Nat) (acc : List (List Entry)) (e : Entry) : List (List Entry) :=
  acc.set (e.hash % newCount) (e :: acc.getD (e.hash % newCount) [])

/-- resize_hash_table: the outer loop over the old buckets and the
inner loop over each chain, pushing every entry in traversal order. -/
def resizeTable (s : KStore) (newCount : Nat) : KStore :=
  let nb :=
    s.buckets.foldl
      (fun acc chain => chain.foldl (bucketPush newCount) acc)
      (List.replicate newCount [])
  { s with buckets := nb }

/-- The load-factor trigger of kvstore_put_value:
kvstore_load_factor(store) >= 0.75, i.e. (double)N / (double)B >=
0.75, which on exactly representable operands (B a power of two) is
3 * B <= 4 * N; a zero bucket count reports load factor 0.0. -/
def loadFactorAtLeastMax (s : KStore) : Bool :=
  0 < s.buckets.length && 3 * s.buckets.length ≤ 4 * s.entryCount

/-- The conditional grow step of kvstore_put_value: when the load
factor reached 0.75, rehash into 2 * bucket_count buckets. -/
def growIfNeeded (s : KStore) : KStore :=
  if loadFactorAtLeastMax s then resizeTable s (2 * s.buckets.length) else s

/-- kvstore_put_value.  Key checks first; then the update path
(overwrite in place, arena garbage accepted), else grow when the load
factor reached 0.75, create the entry in the arena and push it onto
the head of its bucket. -/
def kvstorePutValue (s : KStore) (key : List Nat) (v : KValue) : KVError × KStore :=
  if key = [] then (.invalidKey, s)
  else if maxStringSize < key.length then (.stringTooLarge, s)
  else
    let h := hashKey key
    match findEntry s key h with
    | some _ =>
      let (v2, a2) := valueCopyArena s.arena v
      let idx := h % s.buckets.length
      (.ok, { s with buckets := s.buckets.set idx (replaceFirstValue h key v2 (s.buckets.getD idx [])),
                     arena := a2 })
    | none =>
      let s1 := growIfNeeded s
      let a1 := arenaAlloc s1.arena entrySize
      match stringCreateArena a1 key with
      | (none, a2) => (.memory, { s1 with arena := a2 })
      | (some kd, a2) =>
        let (v2, a3) := valueCopyArena a2 v
        let idx := h % s1.buckets.length
        (.ok, { s1 with
                  buckets := s1.buckets.set idx (⟨kd, v2, h⟩ :: s1.buckets.getD idx []),
                  entryCount := s1.entryCount + 1,
                  arena := a3 })

/-- kvstore_get_value: key checks, then find_entry; the stored value
is returned (the C hands out a borrowed pointer to it). -/
def kvstoreGetValue (s : KStore) (key : List Nat) : Except KVError KValue :=
  if key = [] then .error .invalidKey
  else if maxStringSize < key.length then .error .stringTooLarge
  else
    match findEntry s key (hashKey key) with
    | none => .error .keyNotFound
    | some e => .ok e.value

/-- kvstore_delete_key: key checks, then unlink the first matching
entry of bucket hash mod B and decrement entry_count; the arena is
not touched. -/
def kvstoreDeleteKey (s : KStore) (key : List Nat) : KVError × KStore :=
  if key = [] then (.invalidKey, s)
  else if maxStringSize < key.length then (.stringTooLarge, s)
  else
    let h := hashKey key
    let idx := h % s.buckets.length
    match removeFirstEntry h key (s.buckets.getD idx []) with
    | none => (.keyNotFound, s)
    | some chain2 =>
      (.ok, { s with buckets := s.buckets.set idx chain2, entryCount := s.entryCount - 1 })

/-- kvstore_clear: arena_clear, zero every bucket pointer, zero
entry_count. -/
def kvstoreClear (s : KStore) : KStore :=
  { buckets := List.replicate s.buckets.length [],
    entryCount := 0,
    arena := arenaClear s.arena }

/-- next_power_of_2: anything at most KVSTORE_MIN_CAPACITY becomes 16;
otherwise the bit-smearing trick rounds up to the next power of two. -/
def nextPowerOfTwo (n : Nat) : Nat :=
  if n ≤ minCapacity then minCapacity
  else
    let m := n - 1
    let m := m ||| (m >>> 1)
    let m := m ||| (m >>> 2)
    let m := m ||| (m >>> 4)
    let m := m ||| (m >>> 8)
    let m := m ||| (m >>> 16)
    let m := m ||| (m >>> 32)
    m + 1

/-- kvstore_create: capacity 0 means KVSTORE_DEFAULT_CAPACITY;
bucket_count = next_power_of_2(capacity); empty buckets, fresh
arena. -/
def kvstoreCreate (capacity : Nat) : KStore :=
  let cap := if capacity = 0 then defaultCapacity else capacity
  { buckets := List.replicate (nextPowerOfTwo cap) [],
    entryCount := 0,
    arena := arenaInit }

/-- kvstore_size. -/
def kvstoreSize (s : KStore) : Nat := s.entryCount

/-- kvstore_put_string: strlen-based length checks on key and value
before the value is even created, then a heap string value handed to
kvstore_put_value (which copies it into the arena). -/
def kvstorePutString (s : KStore) (key value : List Nat) : KVError × KStore :=
  if maxStringSize < key.length ∨ maxStringSize < value.length then (.stringTooLarge, s)
  else kvstorePutValue s key (valueCreateString value)

/-- kvstore_put_binary: same shape as kvstore_put_string. -/
def kvstorePutBinary (s : KStore) (key value : List Nat) : KVError × KStore :=
  if maxStringSize < key.length ∨ maxStringSize < value.length then (.stringTooLarge, s)
  else kvstorePutValue s key (valueCreateBinary value)

/-- kvstore_iterator_t: the bucket index and the chain suffix hanging
from current_entry (the entry itself and everything reachable through
next). -/
structure KIter where
  bucketIndex : Nat
  chain : List Entry
deriving DecidableEq

/-- The scan-forward loop shared by kvstore_iter_begin and
kvstore_iter_next: starting at bucket i, skip empty buckets; when a
non-empty bucket is found the iterator points at its first entry, and
past the last bucket the iterator carries a NULL current_entry. -/
def firstFrom (s : KStore) (i : Nat) : KIter :=
  if h : i < s.buckets.length then
    if (s.buckets.getD i []).isEmpty then firstFrom s (i + 1)
    else ⟨i, s.buckets.getD i []⟩
  else ⟨i, []⟩
termination_by s.buckets.length - i

/-- kvstore_iter_begin: start at bucket 0 and advance to the first
non-empty bucket. -/
def iterBegin (s : KStore) : KIter := firstFrom s 0

/-- kvstore_iter_valid: index in range and current_entry non-NULL. -/
def iterValid (s : KStore) (it : KIter) : Bool :=
  decide (it.bucketIndex < s.buckets.length) && !it.chain.isEmpty

/-- kvstore_iter_next: follow the next pointer inside the chain, else
advance to the next non-empty bucket. -/
def iterNext (s : KStore) (it : KIter) : KIter :=
  match it.chain with
  | [] => it
  | _ :: rest => if rest.isEmpty then firstFrom s (it.bucketIndex + 1) else ⟨it.bucketIndex, rest⟩

/-- The begin/valid/next/get loop: collect the entries the iterator
visits.  The C loop needs no fuel; here a step budget stands in for
its termination, and any budget of at least the number of live
entries is shown to be enough. -/
def iterRun (s : KStore) : Nat → KIter → List Entry
  | 0, _ => []
  | n + 1, it =>
    if iterValid s it then
      match it.chain with
      | [] => []
      | e :: _ => e :: iterRun s n (iterNext s it)
    else []

/-- read_full over an in-memory file: take n bytes or report the short
read. -/
def readN (n : Nat) (bs : List Nat) : Option (List Nat × List Nat) :=
  if n ≤ bs.length then some (bs.take n, bs.drop n) else none

/-- The value of w bytes read big-endian, as produced by
ntohl_portable / ntohll_portable on a little-endian host. -/
def beVal : List Nat → Nat
  | [] => 0
  | b :: bs => b * 256 ^ bs.length + beVal bs

/-- The w big-endian bytes of n, as produced by htonl_portable /
htonll_portable followed by write_full. -/
def encodeBE : Nat → Nat → List Nat
  | 0, _ => []
  | w + 1, n => n / 256 ^ w % 256 :: encodeBE w n

/-- write_value: tag byte then the payload.  int64 is written
big-endian (htonll); the double bit pattern is written in host memory
order, i.e. little-endian on the reference host, hence the reversed
byte order; string/binary are a big-endian u32 length then the raw
bytes. -/
def encodeValue : KValue → List Nat
  | .nullv => [0]
  | .str l => 1 :: (encodeBE 4 l.length ++ l)
  | .int64 b => 2 :: encodeBE 8 b
  | .double b => 3 :: (encodeBE 8 b).reverse
  | .boolv b => [4, if b then 1 else 0]
  | .binary l => 5 :: (encodeBE 4 l.length ++ l)

/-- One entry in the snapshot stream: key length (u32 BE), key bytes,
value. -/
def encodeEntry (e : Entry) : List Nat :=
  encodeBE 4 e.key.length ++ e.key ++ encodeValue e.value

/-- kvstore_save as the byte stream it writes: magic, the three
version bytes (KVSTORE_VERSION 3.0.0), entry_count truncated to u32,
then every live entry in iteration order.  The iterator visits the
chains in bucket order (theorem about iterRun below), which is the
flatten of the bucket list.  File system errors are out of scope: the
model is the content of a successfully written file. -/
def saveBytes (s : KStore) : List Nat :=
  encodeBE 4 magicNumber ++ [3, 0, 0] ++ encodeBE 4 (s.entryCount % 2 ^ 32) ++
    ((allEntries s).map encodeEntry).flatten

/-- read_value: tag byte, validation, then the payload mirror of
write_value.  A short read is an I/O error, a tag above 5 is
InvalidFormat, an oversized string length is StringTooLarge. -/
def readValueB (bs : List Nat) : Except KVError (KValue × List Nat) :=
  match bs with
  | [] => .error .ioErr
  | t :: rest =>
    if 5 < t then .error .invalidFormat
    else if t = 0 then .ok (.nullv, rest)
    else if t = 1 ∨ t = 5 then
      match readN 4 rest with
      | none => .error .ioErr
      | some (lb, r2) =>
        let len := beVal lb
        if maxStringSize < len then .error .stringTooLarge
        else
          match readN len r2 with
          | none => .error .ioErr
          | some (d, r3) => .ok (if t = 1 then .str d else .binary d, r3)
    else if t = 2 then
      match readN 8 rest with
      | none => .error .ioErr
      | some (ib, r2) => .ok (.int64 (beVal ib), r2)
    else if t = 3 then
      match readN 8 rest with
      | none => .error .ioErr
      | some (db, r2) => .ok (.double (beVal db.reverse), r2)
    else
      match readN 1 rest with
      | none => .error .ioErr
      | some (bb, r2) => .ok (.boolv (bb.getD 0 0 ≠ 0), r2)

/-- The entry loop of kvstore_load: count iterations of key length,
key bytes, value, then kvstore_put_value.  Every failure returns
immediately, keeping whatever has been stored so far. -/
def loadEntries : Nat → List Nat → KStore → KVError × KStore
  | 0, _, s => (.ok, s)
  | n + 1, bs, s =>
    match readN 4 bs with
    | none => (.ioErr, s)
    | some (klb, r1) =>
      let klen := beVal klb
      if klen = 0 ∨ maxStringSize < klen then (.stringTooLarge, s)
      else
        match readN klen r1 with
        | none => (.ioErr, s)
        | some (kd, r2) =>
          match readValueB r2 with
          | .error e => (e, s)
          | .ok (v, r3) =>
            match kvstorePutValue s kd v with
            | (.ok, s2) => loadEntries n r3 s2
            | (e, s2) => (e, s2)

/-- kvstore_load: none models a file that fails to open (ENOENT
included) and returns I/O error with the store untouched.  Otherwise:
magic (checked before anything is cleared), version bytes (read, not
enforced), entry count, then kvstore_clear and the entry loop. -/
def kvstoreLoad (s : KStore) (file : Option (List Nat)) : KVError × KStore :=
  match file with
  | none => (.ioErr, s)
  | some bs =>
    match readN 4 bs with
    | none => (.ioErr, s)
    | some (mb, r1) =>
      if beVal mb ≠ magicNumber then (.invalidFormat, s)
      else
        match readN 3 r1 with
        | none => (.ioErr, s)
        | some (_, r2) =>
          match readN 4 r2 with
          | none => (.ioErr, s)
          | some (cb, r3) => loadEntries (beVal cb) r3 (kvstoreClear s)

/-- The abort condition of kvapi_init after the auto-load: every
result other than OK and IO destroys the handle; IO (the missing-file
case) is tolerated and leaves the fresh engine empty. -/
def kvapiInitFails (e : KVError) : Bool :=
  e ≠ .ok && e ≠ .ioErr

/-- One load/put step, used to describe what a sequence of puts does
to a store. -/
def putStep (t : KStore) (e : Entry) : KStore :=
  (kvstorePutValue t e.key e.value).2

/-- The bucket-placement invariant claimed in the spec: every entry
in bucket i carries hash = fnv1a(key) and hash mod B = i. -/
def Placed (s : KStore) : Prop :=
  ∀ i, i < s.buckets.length → ∀ e ∈ s.buckets.getD i [],
    e.hash = hashKey e.key ∧ e.hash % s.buckets.length = i

instance (s : KStore) : Decidable (Placed s) := by
  unfold Placed; infer_instance

/-- Bucket counts are 16, 32, 64, ...: a power of two with exponent at
least 4.  The exponent bound k <= n keeps the predicate decidable by
bounded search (and loses nothing, since k < 2 ^ k = n). -/
def Pow2Ge16 (n : Nat) : Prop :=
  ∃ k, k ≤ n ∧ 4 ≤ k ∧ n = 2 ^ k

instance : DecidablePred Pow2Ge16 := fun n => by
  unfold Pow2Ge16
  infer_instance

/-- The full well-formedness invariant maintained by the engine:
positive bucket count, power-of-two bucket count at least 16, the
placement invariant, per-entry validity (keys non-empty and at most
1 MiB, values within the put preconditions), key uniqueness,
entry_count consistent with the chains, and the post-put load-factor
bound N/B <= 3/4. -/
def WF (s : KStore) : Prop :=
  0 < s.buckets.length ∧
  Pow2Ge16 s.buckets.length ∧
  Placed s ∧
  (∀ e ∈ allEntries s, e.key ≠ [] ∧ e.key.length ≤ maxStringSize ∧ ValueOK e.value) ∧
  (keysOf s).Nodup ∧
  s.entryCount = (allEntries s).length ∧
  4 * s.entryCount ≤ 3 * s.buckets.length

instance (s : KStore) : Decidable (WF s) := by
  unfold WF; infer_instance

/-! ### List plumbing -/

theorem entryMatches_iff {h : Nat} {k : List Nat} {e : Entry} :
    entryMatches h k e = true ↔ (e.hash = h ∧ e.key = k) := by
  simp [entryMatches]

theorem getD_replicate_self {α : Type} (n i : Nat) (a : α) :
    (List.replicate n a).getD i a = a := by
  simp only [List.getD, List.get?_eq_getElem?, List.getElem?_replicate]
  split <;> rfl

theorem getD_set_self {α : Type} (l : List α) (i : Nat) (c d : α) (h : i < l.length) :
    (l.set i c).getD i d = c := by
  simp [List.getD, List.get?_eq_getElem?, List.getElem?_set_self, h]

theorem getD_set_ne {α : Type} (l : List α) (i j : Nat) (c d : α) (h : i ≠ j) :
    (l.set i c).getD j d = l.getD j d := by
  simp [List.getD, List.get?_eq_getElem?, List.getElem?_set_ne, h]

theorem flatten_eq_take_drop {α : Type} (bs : List (List α)) (i : Nat) (h : i < bs.length) :
    bs.flatten = (bs.take i).flatten ++ bs.getD i [] ++ (bs.drop (i + 1)).flatten := by
  induction bs generalizing i with
  | nil => simp at h
  | cons b bs ih =>
    cases i with
    | zero => simp [List.getD]
    | succ i =>
      simp only [List.length_cons, Nat.add_lt_add_iff_right] at h
      have hg : (b :: bs).getD (i + 1) [] = bs.getD i [] := by
        simp [List.getD]
      rw [List.take_succ_cons, List.drop_succ_cons, hg, List.flatten_cons, List.flatten_cons,
        ih i h]
      simp [List.append_assoc]

theorem set_flatten_eq {α : Type} (bs : List (List α)) (i : Nat) (c : List α)
    (h : i < bs.length) :
    (bs.set i c).flatten = (bs.take i).flatten ++ c ++ (bs.drop (i + 1)).flatten := by
  induction bs generalizing i with
  | nil => simp at h
  | cons b bs ih =>
    cases i with
    | zero => simp
    | succ i =>
      simp only [List.length_cons, Nat.add_lt_add_iff_right] at h
      rw [List.set_cons_succ, List.take_succ_cons, List.drop_succ_cons, List.flatten_cons,
        List.flatten_cons, ih i h]
      simp [List.append_assoc]

theorem getD_out_of_range {α : Type} (bs : List (List α)) (i : Nat) (h : ¬ i < bs.length) :
    bs.getD i [] = [] := by
  simp only [List.getD, List.get?_eq_getElem?]
  rw [List.getElem?_eq_none (by omega)]
  rfl

theorem mem_getD_flatten {α : Type} {bs : List (List α)} {i : Nat} {e : α}
    (h : e ∈ bs.getD i []) : e ∈ bs.flatten := by
  by_cases hi : i < bs.length
  · rw [flatten_eq_take_drop bs i hi]
    simp only [List.mem_append]
    exact Or.inl (Or.inr h)
  · rw [getD_out_of_range bs i hi] at h
    simp at h

theorem exists_idx_of_mem_flatten {α : Type} {bs : List (List α)} {e : α}
    (h : e ∈ bs.flatten) : ∃ i, i < bs.length ∧ e ∈ bs.getD i [] := by
  rw [List.mem_flatten] at h
  obtain ⟨l, hl, he⟩ := h
  rw [List.mem_iff_getElem] at hl
  obtain ⟨i, hi, rfl⟩ := hl
  refine ⟨i, hi, ?_⟩
  simpa [List.getD, List.get?_eq_getElem?, List.getElem?_eq_getElem hi] using he

theorem flatten_set_cons_perm {α : Type} (bs : List (List α)) (i : Nat) (e : α)
    (h : i < bs.length) :
    List.Perm ((bs.set i (e :: bs.getD i [])).flatten) (e :: bs.flatten) := by
  rw [set_flatten_eq bs i _ h]
  conv_rhs => rw [flatten_eq_take_drop bs i h]
  have hp := @List.perm_middle α e ((bs.take i).flatten)
    (bs.getD i [] ++ (bs.drop (i + 1)).flatten)
  simp only [List.append_assoc, List.cons_append]
  exact hp

theorem find?_append_decomp {α : Type} (p : α → Bool) (pre post : List α) (e : α)
    (hpre : ∀ x ∈ pre, ¬ p x) (he : p e) :
    List.find? p (pre ++ e :: post) = some e := by
  induction pre with
  | nil => simpa using List.find?_cons_of_pos post he
  | cons a pre ih =>
    have ha : ¬ p a := hpre a (by simp)
    simp only [List.cons_append]
    rw [List.find?_cons_of_neg _ (by simpa using ha)]
    exact ih (fun x hx => hpre x (by simp [hx]))

/-! ### Chain operations: find, in-place value overwrite, unlink -/

theorem copyArena_fst (a : Arena) (v : KValue) : (valueCopyArena a v).1 = copyResult v := by
  cases v
  case str l =>
    by_cases hl : maxStringSize < l.length <;>
      simp [valueCopyArena, valueCreateStringArena, stringCreateArena, copyResult, hl]
  case binary l =>
    by_cases hl : maxStringSize < l.length <;>
      simp [valueCopyArena, valueCreateBinaryArena, stringCreateArena, copyResult, hl]
  all_goals rfl

theorem copyResult_of_ok {v : KValue} (hv : ValueOK v) : copyResult v = v := by
  cases v
  case str l =>
    simp only [ValueOK] at hv
    simp [copyResult, Nat.not_lt.2 hv]
  case binary l =>
    simp only [ValueOK] at hv
    simp [copyResult, Nat.not_lt.2 hv]
  all_goals rfl

theorem copyResult_ok_of {v : KValue} (hv : ValueOK v) : ValueOK (copyResult v) := by
  rw [copyResult_of_ok hv]; exact hv

theorem find_replaceFirst_self (h : Nat) (k : List Nat) (v : KValue) (l : List Entry) :
    List.find? (entryMatches h k) (replaceFirstValue h k v l) =
      (List.find? (entryMatches h k) l).map (fun e => ⟨e.key, v, e.hash⟩) := by
  induction l with
  | nil => rfl
  | cons e rest ih =>
    by_cases he : entryMatches h k e
    · have he2 : entryMatches h k (⟨e.key, v, e.hash⟩ : Entry) = true := by
        rcases entryMatches_iff.1 he with ⟨h1, h2⟩
        exact entryMatches_iff.2 ⟨h1, h2⟩
      rw [replaceFirstValue, if_pos he, List.find?_cons_of_pos _ he2,
        List.find?_cons_of_pos _ he]
      rfl
    · rw [replaceFirstValue, if_neg he, List.find?_cons_of_neg _ (by simpa using he),
        List.find?_cons_of_neg _ (by simpa using he), ih]

theorem replaceFirst_map_keyhash (h : Nat) (k : List Nat) (v : KValue) (l : List Entry) :
    (replaceFirstValue h k v l).map (fun e => (e.key, e.hash)) =
      l.map (fun e => (e.key, e.hash)) := by
  induction l with
  | nil => rfl
  | cons e rest ih =>
    by_cases he : entryMatches h k e <;> simp [replaceFirstValue, he, ih]

theorem replaceFirst_length (h : Nat) (k : List Nat) (v : KValue) (l : List Entry) :
    (replaceFirstValue h k v l).length = l.length := by
  have := congrArg List.length (replaceFirst_map_keyhash h k v l)
  simpa using this

theorem mem_replaceFirst {h : Nat} {k : List Nat} {v : KValue} {l : List Entry} {x : Entry}
    (hx : x ∈ replaceFirstValue h k v l) :
    x ∈ l ∨ ∃ y ∈ l, entryMatches h k y = true ∧ x = ⟨y.key, v, y.hash⟩ := by
  induction l with
  | nil => simp [replaceFirstValue] at hx
  | cons e rest ih =>
    by_cases he : entryMatches h k e
    · rw [replaceFirstValue, if_pos he] at hx
      rcases List.mem_cons.1 hx with hx | hx
      · exact Or.inr ⟨e, by simp, he, hx⟩
      · exact Or.inl (List.mem_cons.2 (Or.inr hx))
    · rw [replaceFirstValue, if_neg he] at hx
      rcases List.mem_cons.1 hx with hx | hx
      · exact Or.inl (by simp [hx])
      · rcases ih hx with hx | ⟨y, hy, hm, hxy⟩
        · exact Or.inl (by simp [hx])
        · exact Or.inr ⟨y, by simp [hy], hm, hxy⟩

theorem find_replaceFirst_ne {h h2 : Nat} {k k2 : List Nat} (v : KValue) (l : List Entry)
    (hkk : k ≠ k2) :
    List.find? (entryMatches h2 k2) (replaceFirstValue h k v l) =
      List.find? (entryMatches h2 k2) l := by
  induction l with
  | nil => rfl
  | cons e rest ih =>
    by_cases he : entryMatches h k e
    · have hne : ¬ entryMatches h2 k2 e = true := by
        intro hc
        rcases entryMatches_iff.1 he with ⟨_, hek⟩
        rcases entryMatches_iff.1 hc with ⟨_, hek2⟩
        exact hkk (hek ▸ hek2 ▸ rfl)
      have hne2 : ¬ entryMatches h2 k2 (⟨e.key, v, e.hash⟩ : Entry) = true := by
        intro hc
        rcases entryMatches_iff.1 hc with ⟨h1, h2x⟩
        exact hne (entryMatches_iff.2 ⟨h1, h2x⟩)
      rw [replaceFirstValue, if_pos he, List.find?_cons_of_neg _ (by simpa using hne2),
        List.find?_cons_of_neg _ (by simpa using hne)]
    · by_cases hp : entryMatches h2 k2 e
      · rw [replaceFirstValue, if_neg he, List.find?_cons_of_pos _ hp,
          List.find?_cons_of_pos _ hp]
      · rw [replaceFirstValue, if_neg he, List.find?_cons_of_neg _ (by simpa using hp),
          List.find?_cons_of_neg _ (by simpa using hp), ih]

theorem removeFirst_none_iff {h : Nat} {k : List Nat} {l : List Entry} :
    removeFirstEntry h k l = none ↔ ∀ x ∈ l, ¬ entryMatches h k x = true := by
  induction l with
  | nil => simp [removeFirstEntry]
  | cons e rest ih =>
    by_cases he : entryMatches h k e
    · simp [removeFirstEntry, he]
    · simp only [removeFirstEntry, if_neg he]
      constructor
      · intro hr x hx
        rcases List.mem_cons.1 hx with rfl | hx
        · simpa using he
        · exact (ih.1 (by simpa using hr)) x hx
      · intro hall
        have : removeFirstEntry h k rest = none := ih.2 (fun x hx => hall x (by simp [hx]))
        simp [this]

theorem removeFirst_some_decomp {h : Nat} {k : List Nat} {l r : List Entry}
    (hr : removeFirstEntry h k l = some r) :
    ∃ pre e post, l = pre ++ e :: post ∧ entryMatches h k e = true ∧
      (∀ x ∈ pre, ¬ entryMatches h k x = true) ∧ r = pre ++ post := by
  induction l generalizing r with
  | nil => simp [removeFirstEntry] at hr
  | cons e rest ih =>
    by_cases he : entryMatches h k e
    · rw [removeFirstEntry, if_pos he] at hr
      exact ⟨[], e, rest, by simp, he, by simp, by simpa using hr.symm⟩
    · rw [removeFirstEntry, if_neg he] at hr
      rcases Option.map_eq_some'.1 hr with ⟨r0, hr0, rfl⟩
      rcases ih hr0 with ⟨pre, x, post, hl, hm, hpre, hr2⟩
      refine ⟨e :: pre, x, post, by simp [hl], hm, ?_, by simp [hr2]⟩
      intro y hy
      rcases List.mem_cons.1 hy with rfl | hy
      · simpa using he
      · exact hpre y hy

/-! ### Resize -/

theorem bucketPush_length (n : Nat) (acc : List (List Entry)) (e : Entry) :
    (bucketPush n acc e).length = acc.length := by
  simp [bucketPush]

theorem foldl_bucketPush_length (n : Nat) (L : List Entry) (acc : List (List Entry)) :
    (L.foldl (bucketPush n) acc).length = acc.length := by
  induction L generalizing acc with
  | nil => rfl
  | cons e L ih => rw [List.foldl_cons, ih, bucketPush_length]

theorem bucketPush_flatten_perm (n : Nat) (acc : List (List Entry)) (e : Entry)
    (hlen : acc.length = n) (hn : 0 < n) :
    List.Perm ((bucketPush n acc e).flatten) (e :: acc.flatten) := by
  have hlt : e.hash % n < acc.length := by rw [hlen]; exact Nat.mod_lt _ hn
  exact flatten_set_cons_perm acc _ e hlt

theorem foldl_bucketPush_flatten_perm (n : Nat) (L : List Entry) (acc : List (List Entry))
    (hlen : acc.length = n) (hn : 0 < n) :
    List.Perm ((L.foldl (bucketPush n) acc).flatten) (L ++ acc.flatten) := by
  induction L generalizing acc with
  | nil => simp
  | cons e L ih =>
    have h1 := ih (bucketPush n acc e) (by rw [bucketPush_length, hlen])
    have h2 := (bucketPush_flatten_perm n acc e hlen hn).append_left L
    exact (h1.trans (h2.trans List.perm_middle))

theorem bucketPush_placed (n : Nat) (acc : List (List Entry)) (e : Entry)
    (hlen : acc.length = n)
    (hacc : ∀ j, j < n → ∀ x ∈ acc.getD j [], x.hash % n = j) :
    ∀ j, j < n → ∀ x ∈ (bucketPush n acc e).getD j [], x.hash % n = j := by
  intro j hj x hx
  by_cases hij : e.hash % n = j
  · rw [bucketPush, hij, getD_set_self _ _ _ _ (by omega)] at hx
    rcases List.mem_cons.1 hx with rfl | hx
    · exact hij
    · exact hacc j hj x hx
  · rw [bucketPush, getD_set_ne _ _ _ _ _ hij] at hx
    exact hacc j hj x hx

theorem foldl_bucketPush_placed (n : Nat) (L : List Entry) (acc : List (List Entry))
    (hlen : acc.length = n)
    (hacc : ∀ j, j < n → ∀ x ∈ acc.getD j [], x.hash % n = j) :
    ∀ j, j < n → ∀ x ∈ (L.foldl (bucketPush n) acc).getD j [], x.hash % n = j := by
  induction L generalizing acc with
  | nil => exact hacc
  | cons e L ih =>
    rw [List.foldl_cons]
    exact ih (bucketPush n acc e) (by rw [bucketPush_length, hlen])
      (bucketPush_placed n acc e hlen hacc)

theorem flatten_replicate_nil {α : Type} (n : Nat) :
    (List.replicate n ([] : List α)).flatten = [] := by
  induction n with
  | zero => rfl
  | succ n ih => simp [List.replicate, ih]

theorem resizeTable_buckets (s : KStore) (n : Nat) :
    (resizeTable s n).buckets = (allEntries s).foldl (bucketPush n) (List.replicate n []) := by
  rw [allEntries, List.foldl_flatten]
  rfl

theorem resizeTable_entryCount (s : KStore) (n : Nat) :
    (resizeTable s n).entryCount = s.entryCount := rfl

theorem resizeTable_arena (s : KStore) (n : Nat) :
    (resizeTable s n).arena = s.arena := rfl

theorem resizeTable_length (s : KStore) (n : Nat) :
    (resizeTable s n).buckets.length = n := by
  rw [resizeTable_buckets, foldl_bucketPush_length, List.length_replicate]

theorem resizeTable_flatten_perm (s : KStore) (n : Nat) (hn : 0 < n) :
    List.Perm (allEntries (resizeTable s n)) (allEntries s) := by
  have hp := foldl_bucketPush_flatten_perm n (allEntries s) (List.replicate n [])
    (List.length_replicate n []) hn
  rw [flatten_replicate_nil, List.append_nil] at hp
  rw [allEntries, resizeTable_buckets]
  exact hp

theorem resizeTable_mod_placed (s : KStore) (n : Nat) :
    ∀ j, j < n → ∀ x ∈ (resizeTable s n).buckets.getD j [], x.hash % n = j := by
  have := foldl_bucketPush_placed n (allEntries s) (List.replicate n [])
    (List.length_replicate n [])
    (by intro j hj x hx; rw [getD_replicate_self] at hx; simp at hx)
  rw [resizeTable_buckets]
  exact this

theorem placed_hash_global {s : KStore} (hp : Placed s) :
    ∀ e ∈ allEntries s, e.hash = hashKey e.key := by
  intro e he
  obtain ⟨i, hi, hei⟩ := exists_idx_of_mem_flatten he
  exact (hp i hi e hei).1

theorem resizeTable_placed {s : KStore} (n : Nat) (hn : 0 < n) (hp : Placed s) :
    Placed (resizeTable s n) := by
  intro i hi e he
  rw [resizeTable_length] at hi
  constructor
  · have hmem : e ∈ allEntries (resizeTable s n) := mem_getD_flatten he
    have hmem2 : e ∈ allEntries s := (resizeTable_flatten_perm s n hn).mem_iff.1 hmem
    exact placed_hash_global hp e hmem2
  · rw [resizeTable_length]
    exact resizeTable_mod_placed s n i hi e he

/-! ### find_entry characterization under the table invariants -/

theorem findEntry_some_basic {s : KStore} {k : List Nat} {h : Nat} {e : Entry}
    (hf : findEntry s k h = some e) :
    e.hash = h ∧ e.key = k ∧ e ∈ allEntries s := by
  unfold findEntry at hf
  by_cases hk : k = []
  · rw [if_pos hk] at hf; cases hf
  · rw [if_neg hk] at hf
    have hm := entryMatches_iff.1 (List.find?_some hf)
    exact ⟨hm.1, hm.2, mem_getD_flatten (List.mem_of_find?_eq_some hf)⟩

theorem findEntry_char {s : KStore} (hp : Placed s) (hu : (keysOf s).Nodup)
    {k : List Nat} (hk : k ≠ []) (e : Entry) :
    findEntry s k (hashKey k) = some e ↔ (e ∈ allEntries s ∧ e.key = k) := by
  constructor
  · intro hf
    have := findEntry_some_basic hf
    exact ⟨this.2.2, this.2.1⟩
  · rintro ⟨hmem, hkey⟩
    obtain ⟨i, hi, hei⟩ := exists_idx_of_mem_flatten hmem
    have hph := hp i hi e hei
    have hhash : e.hash = hashKey k := by rw [hph.1, hkey]
    have hidx : hashKey k % s.buckets.length = i := by rw [← hhash]; exact hph.2
    unfold findEntry
    rw [if_neg hk, hidx]
    have hex : (List.find? (entryMatches (hashKey k) k) (s.buckets.getD i [])).isSome :=
      List.find?_isSome.2 ⟨e, hei, entryMatches_iff.2 ⟨hhash, hkey⟩⟩
    obtain ⟨x, hfx⟩ := Option.isSome_iff_exists.1 hex
    have hxkey : x.key = k := (entryMatches_iff.1 (List.find?_some hfx)).2
    have hxmem : x ∈ allEntries s := mem_getD_flatten (List.mem_of_find?_eq_some hfx)
    have hxe : x = e :=
      List.inj_on_of_nodup_map hu hxmem hmem (by rw [hxkey, hkey])
    rw [hfx, hxe]

theorem findEntry_none_char {s : KStore} (hp : Placed s) (hu : (keysOf s).Nodup)
    {k : List Nat} (hk : k ≠ []) :
    findEntry s k (hashKey k) = none ↔ ∀ e ∈ allEntries s, e.key ≠ k := by
  constructor
  · intro hf e he hkey
    have := (findEntry_char hp hu hk e).2 ⟨he, hkey⟩
    rw [hf] at this
    cases this
  · intro hall
    cases hfe : findEntry s k (hashKey k) with
    | none => rfl
    | some e =>
      have := (findEntry_char hp hu hk e).1 hfe
      exact absurd this.2 (hall e this.1)

theorem keysOf_perm_nodup {s t : KStore}
    (hperm : List.Perm (allEntries s) (allEntries t)) (hu : (keysOf s).Nodup) :
    (keysOf t).Nodup := by
  simp only [keysOf] at hu ⊢
  exact ((hperm.map (·.key)).nodup_iff).1 hu

theorem findEntry_congr {s t : KStore} (hps : Placed s) (hpt : Placed t)
    (hus : (keysOf s).Nodup)
    (hperm : List.Perm (allEntries s) (allEntries t)) (k : List Nat) :
    findEntry t k (hashKey k) = findEntry s k (hashKey k) := by
  by_cases hk : k = []
  · simp [findEntry, hk]
  · have hut : (keysOf t).Nodup := keysOf_perm_nodup hperm hus
    cases hfe : findEntry s k (hashKey k) with
    | some e =>
      have he := (findEntry_char hps hus hk e).1 hfe
      exact (findEntry_char hpt hut hk e).2 ⟨hperm.mem_iff.1 he.1, he.2⟩
    | none =>
      cases hft : findEntry t k (hashKey k) with
      | none => rfl
      | some e =>
        have he := (findEntry_char hpt hut hk e).1 hft
        have := (findEntry_none_char hps hus hk).1 hfe e (hperm.mem_iff.2 he.1)
        exact absurd he.2 this

/-! ### kvstore_put_value: branch shapes -/

theorem putValue_empty (s : KStore) (v : KValue) :
    kvstorePutValue s [] v = (.invalidKey, s) := by
  simp [kvstorePutValue]

theorem putValue_toolong {s : KStore} {k : List Nat} (v : KValue)
    (h : maxStringSize < k.length) :
    kvstorePutValue s k v = (.stringTooLarge, s) := by
  have hk : k ≠ [] := by
    intro he
    subst he
    simp [maxStringSize] at h
  simp [kvstorePutValue, hk, h]

theorem putValue_update {s : KStore} {k : List Nat} {v : KValue} {e0 : Entry}
    (hlen : ¬ maxStringSize < k.length)
    (hfind : findEntry s k (hashKey k) = some e0) :
    kvstorePutValue s k v =
      (.ok, { s with
        buckets := s.buckets.set (hashKey k % s.buckets.length)
          (replaceFirstValue (hashKey k) k (copyResult v)
            (s.buckets.getD (hashKey k % s.buckets.length) [])),
        arena := (valueCopyArena s.arena v).2 }) := by
  have hk : k ≠ [] := by
    intro he
    subst he
    simp [findEntry] at hfind
  rcases hva : valueCopyArena s.arena v with ⟨v2, a2⟩
  have hv2 : v2 = copyResult v := by rw [← copyArena_fst s.arena v, hva]
  subst hv2
  simp only [kvstorePutValue, if_neg hk, if_neg hlen, hfind, hva]

theorem putValue_insert {s : KStore} {k : List Nat} {v : KValue}
    (hk : k ≠ []) (hlen : ¬ maxStringSize < k.length)
    (hfind : findEntry s k (hashKey k) = none) :
    kvstorePutValue s k v =
      (.ok,
        ⟨(growIfNeeded s).buckets.set (hashKey k % (growIfNeeded s).buckets.length)
            (⟨k, copyResult v, hashKey k⟩ ::
              (growIfNeeded s).buckets.getD (hashKey k % (growIfNeeded s).buckets.length) []),
          (growIfNeeded s).entryCount + 1,
          (valueCopyArena
            (arenaAlloc (arenaAlloc (growIfNeeded s).arena entrySize) (k.length + 1)) v).2⟩) := by
  have hsc : stringCreateArena (arenaAlloc (growIfNeeded s).arena entrySize) k =
      (some k, arenaAlloc (arenaAlloc (growIfNeeded s).arena entrySize) (k.length + 1)) := by
    simp [stringCreateArena, hlen]
  rcases hva : valueCopyArena
      (arenaAlloc (arenaAlloc (growIfNeeded s).arena entrySize) (k.length + 1)) v with ⟨v2, a3⟩
  have hv2 : v2 = copyResult v := by rw [← copyArena_fst _ v, hva]
  subst hv2
  simp only [kvstorePutValue, if_neg hk, if_neg hlen, hfind, hsc, hva]

theorem growIfNeeded_placed {s : KStore} (hp : Placed s) : Placed (growIfNeeded s) := by
  unfold growIfNeeded
  split
  · next hcond =>
    have hb : 0 < s.buckets.length := by
      simp only [loadFactorAtLeastMax, Bool.and_eq_true, decide_eq_true_eq] at hcond
      exact hcond.1
    exact resizeTable_placed _ (by omega) hp
  · exact hp

theorem growIfNeeded_perm (s : KStore) :
    List.Perm (allEntries (growIfNeeded s)) (allEntries s) := by
  unfold growIfNeeded
  split
  · next hcond =>
    have hb : 0 < s.buckets.length := by
      simp only [loadFactorAtLeastMax, Bool.and_eq_true, decide_eq_true_eq] at hcond
      exact hcond.1
    exact resizeTable_flatten_perm s _ (by omega)
  · exact List.Perm.refl _

theorem growIfNeeded_pos {s : KStore} (hb : 0 < s.buckets.length) :
    0 < (growIfNeeded s).buckets.length := by
  unfold growIfNeeded
  split
  · rw [resizeTable_length]; omega
  · exact hb

theorem growIfNeeded_entryCount (s : KStore) :
    (growIfNeeded s).entryCount = s.entryCount := by
  unfold growIfNeeded
  split <;> rfl

/-- After a valid put, get on the same key returns the stored copy of
the value (the value itself when it satisfies the put
preconditions). -/
theorem putValue_get_self {s : KStore} {k : List Nat} (v : KValue)
    (hb : 0 < s.buckets.length) (hk : k ≠ []) (hlen : k.length ≤ maxStringSize) :
    (kvstorePutValue s k v).1 = .ok ∧
    kvstoreGetValue (kvstorePutValue s k v).2 k = .ok (copyResult v) := by
  have hlen2 : ¬ maxStringSize < k.length := Nat.not_lt.2 hlen
  cases hfind : findEntry s k (hashKey k) with
  | some e0 =>
    rw [putValue_update hlen2 hfind]
    refine ⟨rfl, ?_⟩
    have hchain : List.find? (entryMatches (hashKey k) k)
        (s.buckets.getD (hashKey k % s.buckets.length) []) = some e0 := by
      unfold findEntry at hfind
      rw [if_neg hk] at hfind
      exact hfind
    simp only [kvstoreGetValue, if_neg hk, if_neg hlen2, findEntry, List.length_set]
    rw [getD_set_self _ _ _ _ (Nat.mod_lt _ hb), find_replaceFirst_self, hchain]
    rfl
  | none =>
    rw [putValue_insert hk hlen2 hfind]
    refine ⟨rfl, ?_⟩
    have hbg : 0 < (growIfNeeded s).buckets.length := growIfNeeded_pos hb
    have hm : entryMatches (hashKey k) k (⟨k, copyResult v, hashKey k⟩ : Entry) = true :=
      entryMatches_iff.2 ⟨rfl, rfl⟩
    simp only [kvstoreGetValue, if_neg hk, if_neg hlen2, findEntry, List.length_set]
    rw [getD_set_self _ _ _ _ (Nat.mod_lt _ hbg), List.find?_cons_of_pos _ hm]

/-! ### kvstore_put_value: frame and shape consequences -/

theorem replaceFirst_map_key (h : Nat) (k : List Nat) (v : KValue) (l : List Entry) :
    (replaceFirstValue h k v l).map (·.key) = l.map (·.key) := by
  induction l with
  | nil => rfl
  | cons e rest ih =>
    by_cases he : entryMatches h k e <;> simp [replaceFirstValue, he, ih]

theorem findEntry_some_idx_lt {s : KStore} {k : List Nat} {h : Nat} {e : Entry}
    (hf : findEntry s k h = some e) : h % s.buckets.length < s.buckets.length := by
  by_contra hb
  unfold findEntry at hf
  by_cases hk : k = []
  · rw [if_pos hk] at hf; cases hf
  · rw [if_neg hk, getD_out_of_range _ _ hb] at hf
    cases hf

theorem findEntry_update_frame (t : KStore) (a : Arena) (v2 : KValue)
    {k k2 : List Nat} (hne : k2 ≠ k) (hb : 0 < t.buckets.length) :
    findEntry ⟨t.buckets.set (hashKey k % t.buckets.length)
        (replaceFirstValue (hashKey k) k v2 (t.buckets.getD (hashKey k % t.buckets.length) [])),
      t.entryCount, a⟩ k2 (hashKey k2) = findEntry t k2 (hashKey k2) := by
  by_cases hk2 : k2 = []
  · simp [findEntry, hk2]
  · unfold findEntry
    rw [if_neg hk2, if_neg hk2]
    simp only [List.length_set]
    by_cases hidx : hashKey k2 % t.buckets.length = hashKey k % t.buckets.length
    · rw [hidx, getD_set_self _ _ _ _ (Nat.mod_lt _ hb)]
      exact find_replaceFirst_ne v2 _ (Ne.symm hne)
    · rw [getD_set_ne _ _ _ _ _ (fun hc => hidx hc.symm)]

theorem findEntry_insert_frame (t : KStore) (n : Nat) (a : Arena) (e : Entry)
    (hb : 0 < t.buckets.length) {k k2 : List Nat} (hek : e.key = k) (hne : k2 ≠ k) :
    findEntry ⟨t.buckets.set (hashKey k % t.buckets.length)
        (e :: t.buckets.getD (hashKey k % t.buckets.length) []), n, a⟩ k2 (hashKey k2) =
    findEntry t k2 (hashKey k2) := by
  by_cases hk2 : k2 = []
  · simp [findEntry, hk2]
  · unfold findEntry
    rw [if_neg hk2, if_neg hk2]
    simp only [List.length_set]
    by_cases hidx : hashKey k2 % t.buckets.length = hashKey k % t.buckets.length
    · rw [hidx, getD_set_self _ _ _ _ (Nat.mod_lt _ hb)]
      have hnm : ¬ entryMatches (hashKey k2) k2 e = true := by
        intro hc
        exact hne (((entryMatches_iff.1 hc).2.symm.trans hek))
      rw [List.find?_cons_of_neg _ (by simpa using hnm)]
    · rw [getD_set_ne _ _ _ _ _ (fun hc => hidx hc.symm)]

theorem putValue_findEntry_frame {s : KStore} {k k2 : List Nat} (v : KValue)
    (hp : Placed s) (hu : (keysOf s).Nodup) (hb : 0 < s.buckets.length) (hne : k2 ≠ k) :
    findEntry (kvstorePutValue s k v).2 k2 (hashKey k2) = findEntry s k2 (hashKey k2) := by
  by_cases hk : k = []
  · rw [show k = [] from hk, putValue_empty]
  · by_cases hklen : maxStringSize < k.length
    · rw [putValue_toolong v hklen]
    · cases hfind : findEntry s k (hashKey k) with
      | some e0 =>
        rw [putValue_update hklen hfind]
        exact findEntry_update_frame s _ _ hne hb
      | none =>
        rw [putValue_insert hk hklen hfind]
        have step1 := findEntry_insert_frame (growIfNeeded s) ((growIfNeeded s).entryCount + 1)
          ((valueCopyArena
            (arenaAlloc (arenaAlloc (growIfNeeded s).arena entrySize) (k.length + 1)) v).2)
          (⟨k, copyResult v, hashKey k⟩ : Entry) (growIfNeeded_pos hb) rfl hne
        have step2 : findEntry (growIfNeeded s) k2 (hashKey k2) = findEntry s k2 (hashKey k2) :=
          findEntry_congr hp (growIfNeeded_placed hp) hu (growIfNeeded_perm s).symm k2
        exact step1.trans step2

/-- Get sees exactly the old result for every other key. -/
theorem putValue_get_frame {s : KStore} {k k2 : List Nat} (v : KValue)
    (hp : Placed s) (hu : (keysOf s).Nodup) (hb : 0 < s.buckets.length) (hne : k2 ≠ k) :
    kvstoreGetValue (kvstorePutValue s k v).2 k2 = kvstoreGetValue s k2 := by
  unfold kvstoreGetValue
  rw [putValue_findEntry_frame v hp hu hb hne]

theorem putValue_entryCount_update {s : KStore} {k : List Nat} {v : KValue} {e0 : Entry}
    (hklen : ¬ maxStringSize < k.length)
    (hfind : findEntry s k (hashKey k) = some e0) :
    (kvstorePutValue s k v).2.entryCount = s.entryCount := by
  rw [putValue_update hklen hfind]

theorem putValue_entryCount_insert {s : KStore} {k : List Nat} {v : KValue}
    (hk : k ≠ []) (hklen : ¬ maxStringSize < k.length)
    (hfind : findEntry s k (hashKey k) = none) :
    (kvstorePutValue s k v).2.entryCount = s.entryCount + 1 := by
  rw [putValue_insert hk hklen hfind]
  simp [growIfNeeded_entryCount]

theorem putValue_allEntries_insert {s : KStore} {k : List Nat} {v : KValue}
    (hk : k ≠ []) (hklen : ¬ maxStringSize < k.length)
    (hfind : findEntry s k (hashKey k) = none) (hb : 0 < s.buckets.length) :
    List.Perm (allEntries (kvstorePutValue s k v).2)
      (⟨k, copyResult v, hashKey k⟩ :: allEntries s) := by
  rw [putValue_insert hk hklen hfind]
  have h1 := flatten_set_cons_perm (growIfNeeded s).buckets
    (hashKey k % (growIfNeeded s).buckets.length) (⟨k, copyResult v, hashKey k⟩ : Entry)
    (Nat.mod_lt _ (growIfNeeded_pos hb))
  exact h1.trans ((growIfNeeded_perm s).cons _)

theorem putValue_allEntries_update {s : KStore} {k : List Nat} {v : KValue} {e0 : Entry}
    (hklen : ¬ maxStringSize < k.length)
    (hfind : findEntry s k (hashKey k) = some e0) :
    allEntries (kvstorePutValue s k v).2 =
      (s.buckets.take (hashKey k % s.buckets.length)).flatten ++
        replaceFirstValue (hashKey k) k (copyResult v)
          (s.buckets.getD (hashKey k % s.buckets.length) []) ++
        (s.buckets.drop (hashKey k % s.buckets.length + 1)).flatten := by
  rw [putValue_update hklen hfind]
  exact set_flatten_eq _ _ _ (findEntry_some_idx_lt hfind)

theorem putValue_keysOf_update {s : KStore} {k : List Nat} {v : KValue} {e0 : Entry}
    (hklen : ¬ maxStringSize < k.length)
    (hfind : findEntry s k (hashKey k) = some e0) :
    keysOf (kvstorePutValue s k v).2 = keysOf s := by
  unfold keysOf
  rw [putValue_allEntries_update hklen hfind]
  unfold allEntries
  rw [flatten_eq_take_drop s.buckets (hashKey k % s.buckets.length)
    (findEntry_some_idx_lt hfind)]
  simp [replaceFirst_map_key]

/-! ### Power-of-two bucket counts -/

theorem pow2ge16_double {n : Nat} (hn : Pow2Ge16 n) : Pow2Ge16 (2 * n) := by
  obtain ⟨k, hkn, hk4, rfl⟩ := hn
  have hpos : 1 ≤ 2 ^ k := Nat.one_le_two_pow
  refine ⟨k + 1, by omega, by omega, ?_⟩
  rw [pow_succ]
  ring

theorem pow2ge16_bounds {n : Nat} (hn : Pow2Ge16 n) : 16 ≤ n ∧ 4 ∣ n := by
  obtain ⟨k, hkn, hk4, rfl⟩ := hn
  constructor
  · calc (16 : Nat) = 2 ^ 4 := by norm_num
    _ ≤ 2 ^ k := Nat.pow_le_pow_right (by norm_num) hk4
  · refine ⟨2 ^ (k - 2), ?_⟩
    have h4 : (4 : Nat) = 2 ^ 2 := by norm_num
    rw [h4, ← pow_add]
    congr 1
    omega

theorem growIfNeeded_length (s : KStore) :
    (growIfNeeded s).buckets.length =
      if loadFactorAtLeastMax s then 2 * s.buckets.length else s.buckets.length := by
  unfold growIfNeeded
  split <;> simp [resizeTable_length]

/-! ### WF preservation by put -/

theorem putValue_wf {s : KStore} {k : List Nat} {v : KValue} (hwf : WF s) (hv : ValueOK v) :
    WF (kvstorePutValue s k v).2 := by
  obtain ⟨hb, hpow, hp, hval, hu, hcount, hlf⟩ := hwf
  by_cases hk : k = []
  · rw [show k = [] from hk, putValue_empty]
    exact ⟨hb, hpow, hp, hval, hu, hcount, hlf⟩
  by_cases hklen : maxStringSize < k.length
  · rw [putValue_toolong v hklen]
    exact ⟨hb, hpow, hp, hval, hu, hcount, hlf⟩
  cases hfind : findEntry s k (hashKey k) with
  | some e0 =>
    have hlt := findEntry_some_idx_lt hfind
    have hkeys := @putValue_keysOf_update s k v e0 hklen hfind
    refine ⟨?_, ?_, ?_, ?_, ?_, ?_, ?_⟩
    · rw [putValue_update hklen hfind]
      simpa using hb
    · rw [putValue_update hklen hfind]
      simpa using hpow
    · rw [putValue_update hklen hfind]
      intro i hi e he
      simp only [List.length_set] at hi ⊢
      by_cases hidx : i = hashKey k % s.buckets.length
      · subst hidx
        rw [getD_set_self _ _ _ _ hlt] at he
        rcases mem_replaceFirst he with he | ⟨y, hy, _, rfl⟩
        · exact hp _ hi e he
        · exact hp _ hi y hy
      · rw [getD_set_ne _ _ _ _ _ (fun hc => hidx hc.symm)] at he
        exact hp _ hi e he
    · intro x hx
      rw [putValue_allEntries_update hklen hfind] at hx
      have hsplit := flatten_eq_take_drop s.buckets (hashKey k % s.buckets.length) hlt
      simp only [List.mem_append] at hx
      rcases hx with (hx | hx) | hx
      · exact hval x (by
          rw [allEntries, hsplit]
          exact List.mem_append.2 (Or.inl (List.mem_append.2 (Or.inl hx))))
      · rcases mem_replaceFirst hx with hx | ⟨y, hy, _, rfl⟩
        · exact hval x (by
            rw [allEntries, hsplit]
            exact List.mem_append.2 (Or.inl (List.mem_append.2 (Or.inr hx))))
        · have hyv := hval y (by
            rw [allEntries, hsplit]
            exact List.mem_append.2 (Or.inl (List.mem_append.2 (Or.inr hy))))
          exact ⟨hyv.1, hyv.2.1, copyResult_ok_of hv⟩
      · exact hval x (by
          rw [allEntries, hsplit]
          exact List.mem_append.2 (Or.inr hx))
    · rw [hkeys]
      exact hu
    · have hlen2 : (allEntries (kvstorePutValue s k v).2).length = (allEntries s).length := by
        have := congrArg List.length hkeys
        simpa [keysOf] using this
      rw [putValue_entryCount_update hklen hfind, hlen2]
      exact hcount
    · rw [putValue_entryCount_update hklen hfind, putValue_update hklen hfind]
      simpa using hlf
  | none =>
    have hperm2 := @putValue_allEntries_insert s k v hk hklen hfind hb
    have hgpos := @growIfNeeded_pos s hb
    have hfresh : ∀ e ∈ allEntries s, e.key ≠ k :=
      (findEntry_none_char hp hu hk).1 hfind
    have hknotin : k ∉ keysOf s := by
      intro hkin
      obtain ⟨e, he, hek⟩ := List.mem_map.1 hkin
      exact hfresh e he hek
    refine ⟨?_, ?_, ?_, ?_, ?_, ?_, ?_⟩
    · rw [putValue_insert hk hklen hfind]
      simpa using hgpos
    · rw [putValue_insert hk hklen hfind]
      simp only [List.length_set]
      rw [growIfNeeded_length]
      split
      · exact pow2ge16_double hpow
      · exact hpow
    · rw [putValue_insert hk hklen hfind]
      have hpg : Placed (growIfNeeded s) := growIfNeeded_placed hp
      intro i hi e he
      simp only [List.length_set] at hi ⊢
      by_cases hidx : i = hashKey k % (growIfNeeded s).buckets.length
      · subst hidx
        rw [getD_set_self _ _ _ _ (Nat.mod_lt _ hgpos)] at he
        rcases List.mem_cons.1 he with rfl | he
        · exact ⟨rfl, rfl⟩
        · exact hpg _ hi e he
      · rw [getD_set_ne _ _ _ _ _ (fun hc => hidx hc.symm)] at he
        exact hpg _ hi e he
    · intro x hx
      rcases List.mem_cons.1 (hperm2.mem_iff.1 hx) with rfl | hx
      · exact ⟨hk, by show k.length ≤ maxStringSize; omega, copyResult_ok_of hv⟩
      · exact hval x hx
    · have hkp : List.Perm (keysOf (kvstorePutValue s k v).2) (k :: keysOf s) := by
        simpa [keysOf] using hperm2.map (·.key)
      rw [hkp.nodup_iff]
      exact List.nodup_cons.2 ⟨hknotin, hu⟩
    · rw [putValue_entryCount_insert hk hklen hfind, hperm2.length_eq]
      simp [hcount]
    · rw [putValue_entryCount_insert hk hklen hfind, putValue_insert hk hklen hfind]
      simp only [List.length_set]
      rw [growIfNeeded_length]
      obtain ⟨h16, m, hm⟩ := pow2ge16_bounds hpow
      by_cases hgrow : loadFactorAtLeastMax s
      · rw [if_pos hgrow]
        simp only [loadFactorAtLeastMax, Bool.and_eq_true, decide_eq_true_eq] at hgrow
        omega
      · rw [if_neg hgrow]
        simp only [loadFactorAtLeastMax, Bool.and_eq_true, decide_eq_true_eq,
          not_and, Nat.not_le] at hgrow
        have := hgrow hb
        omega

/-! ### kvstore_delete_key and kvstore_clear -/

theorem deleteKey_absent {s : KStore} {k : List Nat}
    (hk : k ≠ []) (hklen : ¬ maxStringSize < k.length)
    (hfind : findEntry s k (hashKey k) = none) :
    kvstoreDeleteKey s k = (.keyNotFound, s) := by
  unfold findEntry at hfind
  rw [if_neg hk] at hfind
  have hrm : removeFirstEntry (hashKey k) k
      (s.buckets.getD (hashKey k % s.buckets.length) []) = none :=
    removeFirst_none_iff.2 (by
      intro x hx
      exact (List.find?_eq_none.1 hfind) x hx)
  simp only [kvstoreDeleteKey, if_neg hk, if_neg hklen, hrm]

theorem deleteKey_present {s : KStore} {k : List Nat} {e0 : Entry}
    (hklen : ¬ maxStringSize < k.length)
    (hfind : findEntry s k (hashKey k) = some e0) :
    ∃ chain2, removeFirstEntry (hashKey k) k
        (s.buckets.getD (hashKey k % s.buckets.length) []) = some chain2 ∧
      kvstoreDeleteKey s k =
        (.ok, { s with buckets := s.buckets.set (hashKey k % s.buckets.length) chain2,
                       entryCount := s.entryCount - 1 }) := by
  have hk : k ≠ [] := by
    intro he
    subst he
    simp [findEntry] at hfind
  unfold findEntry at hfind
  rw [if_neg hk] at hfind
  have hrm : removeFirstEntry (hashKey k) k
      (s.buckets.getD (hashKey k % s.buckets.length) []) ≠ none := by
    intro hc
    have := removeFirst_none_iff.1 hc _ (List.mem_of_find?_eq_some hfind)
    exact this (List.find?_some hfind)
  cases hrem : removeFirstEntry (hashKey k) k
      (s.buckets.getD (hashKey k % s.buckets.length) []) with
  | none => exact absurd hrem hrm
  | some chain2 =>
    refine ⟨chain2, rfl, ?_⟩
    simp only [kvstoreDeleteKey, if_neg hk, if_neg hklen, hrem]

theorem deleteKey_idx_lt {s : KStore} {k : List Nat} {chain2 : List Entry}
    (hrem : removeFirstEntry (hashKey k) k
      (s.buckets.getD (hashKey k % s.buckets.length) []) = some chain2) :
    hashKey k % s.buckets.length < s.buckets.length := by
  by_contra hb
  rw [getD_out_of_range _ _ hb] at hrem
  simp [removeFirstEntry] at hrem

theorem deleteKey_wf {s : KStore} (k : List Nat) (hwf : WF s) :
    WF (kvstoreDeleteKey s k).2 := by
  obtain ⟨hb, hpow, hp, hval, hu, hcount, hlf⟩ := hwf
  by_cases hk : k = []
  · simp only [kvstoreDeleteKey, if_pos hk]
    exact ⟨hb, hpow, hp, hval, hu, hcount, hlf⟩
  by_cases hklen : maxStringSize < k.length
  · simp only [kvstoreDeleteKey, if_neg hk, if_pos hklen]
    exact ⟨hb, hpow, hp, hval, hu, hcount, hlf⟩
  cases hrem : removeFirstEntry (hashKey k) k
      (s.buckets.getD (hashKey k % s.buckets.length) []) with
  | none =>
    simp only [kvstoreDeleteKey, if_neg hk, if_neg hklen, hrem]
    exact ⟨hb, hpow, hp, hval, hu, hcount, hlf⟩
  | some chain2 =>
    have hlt := deleteKey_idx_lt hrem
    obtain ⟨pre, e, post, hchain, hme, hpre, hc2⟩ := removeFirst_some_decomp hrem
    subst hc2
    have hshape : kvstoreDeleteKey s k =
        (.ok, { s with buckets := s.buckets.set (hashKey k % s.buckets.length) (pre ++ post),
                       entryCount := s.entryCount - 1 }) := by
      simp only [kvstoreDeleteKey, if_neg hk, if_neg hklen, hrem]
    rw [hshape]
    have hflat := flatten_eq_take_drop s.buckets (hashKey k % s.buckets.length) hlt
    have hflat2 := set_flatten_eq s.buckets (hashKey k % s.buckets.length) (pre ++ post) hlt
    have hsub : List.Sublist
        ((s.buckets.set (hashKey k % s.buckets.length) (pre ++ post)).flatten)
        s.buckets.flatten := by
      rw [hflat2, hflat, hchain]
      exact (((List.sublist_cons_self e post).append_left pre).append_left _).append_right _
    refine ⟨by simpa using hb, by simpa using hpow, ?_, ?_, ?_, ?_, ?_⟩
    · intro i hi x hx
      simp only [List.length_set] at hi ⊢
      by_cases hidx : i = hashKey k % s.buckets.length
      · subst hidx
        rw [getD_set_self _ _ _ _ hlt] at hx
        have hxs : x ∈ s.buckets.getD (hashKey k % s.buckets.length) [] := by
          rw [hchain]
          rcases List.mem_append.1 hx with hx | hx
          · simp [hx]
          · simp [hx]
        exact hp _ hi x hxs
      · rw [getD_set_ne _ _ _ _ _ (fun hc => hidx hc.symm)] at hx
        exact hp _ hi x hx
    · intro x hx
      exact hval x (hsub.mem hx)
    · simp only [keysOf, allEntries] at hu ⊢
      exact hu.sublist (hsub.map (·.key))
    · have lc := congrArg List.length hchain
      simp only [List.length_append, List.length_cons] at lc
      have l1 := congrArg List.length hflat
      simp only [List.length_append] at l1
      have l2 := congrArg List.length hflat2
      simp only [List.length_append] at l2
      simp only [allEntries] at hcount
      show s.entryCount - 1 =
        ((s.buckets.set (hashKey k % s.buckets.length) (pre ++ post)).flatten).length
      omega
    · show 4 * (s.entryCount - 1) ≤
        3 * (s.buckets.set (hashKey k % s.buckets.length) (pre ++ post)).length
      simp only [List.length_set]
      omega

theorem clear_allEntries (s : KStore) : allEntries (kvstoreClear s) = [] := by
  unfold allEntries kvstoreClear
  exact flatten_replicate_nil _

theorem clear_findEntry (s : KStore) (k : List Nat) (h : Nat) :
    findEntry (kvstoreClear s) k h = none := by
  unfold findEntry
  by_cases hk : k = []
  · rw [if_pos hk]
  · rw [if_neg hk]
    show ((List.replicate s.buckets.length []).getD _ []).find? _ = none
    rw [getD_replicate_self]
    rfl

theorem clear_buckets_length (s : KStore) :
    (kvstoreClear s).buckets.length = s.buckets.length := by
  simp [kvstoreClear]

theorem clear_entryCount (s : KStore) : (kvstoreClear s).entryCount = 0 := rfl

theorem clear_wf {s : KStore} (hwf : WF s) : WF (kvstoreClear s) := by
  obtain ⟨hb, hpow, _, _, _, _, _⟩ := hwf
  have hae := clear_allEntries s
  refine ⟨?_, ?_, ?_, ?_, ?_, ?_, ?_⟩
  · rw [clear_buckets_length]
    exact hb
  · rw [clear_buckets_length]
    exact hpow
  · intro i hi e he
    have he2 : e ∈ (List.replicate s.buckets.length ([] : List Entry)).getD i [] := he
    rw [getD_replicate_self] at he2
    simp at he2
  · intro e he
    rw [hae] at he
    simp at he
  · simp only [keysOf]
    rw [hae]
    simp
  · rw [clear_entryCount, hae]
    rfl
  · rw [clear_entryCount]
    simp

/-! ### Codec: big-endian fields, value stream, entry stream -/

theorem encodeBE_length (w n : Nat) : (encodeBE w n).length = w := by
  induction w generalizing n with
  | zero => rfl
  | succ w ih => simp [encodeBE, ih]

theorem beVal_encodeBE (w n : Nat) : beVal (encodeBE w n) = n % 256 ^ w := by
  induction w generalizing n with
  | zero => simp [encodeBE, beVal, Nat.mod_one]
  | succ w ih =>
    show beVal (n / 256 ^ w % 256 :: encodeBE w n) = n % 256 ^ (w + 1)
    show n / 256 ^ w % 256 * 256 ^ (encodeBE w n).length + beVal (encodeBE w n) = _
    rw [encodeBE_length, ih, pow_succ, Nat.mod_mul]
    ring

theorem beVal_encodeBE_of_lt {w n : Nat} (h : n < 256 ^ w) :
    beVal (encodeBE w n) = n := by
  rw [beVal_encodeBE, Nat.mod_eq_of_lt h]

theorem readN_exact {xs : List Nat} {n : Nat} (rest : List Nat) (h : xs.length = n) :
    readN n (xs ++ rest) = some (xs, rest) := by
  unfold readN
  rw [if_pos (by simp [h, Nat.le_add_right])]
  simp [h]

theorem readValueB_roundtrip {v : KValue} (hv : ValueOK v) (rest : List Nat) :
    readValueB (encodeValue v ++ rest) = .ok (v, rest) := by
  have hmax : (maxStringSize : Nat) < 4294967296 := by norm_num [maxStringSize]
  have h2564 : (256 : Nat) ^ 4 = 4294967296 := by norm_num
  have h2568 : (256 : Nat) ^ 8 = 18446744073709551616 := by norm_num
  cases v with
  | nullv => rfl
  | str l =>
    have hlen : l.length ≤ maxStringSize := hv
    show readValueB (1 :: (encodeBE 4 l.length ++ (l ++ rest))) = _
    simp only [readValueB, readN_exact _ (encodeBE_length 4 l.length),
      beVal_encodeBE_of_lt (show l.length < 256 ^ 4 by omega),
      Nat.not_lt.2 hlen, if_false, readN_exact _ rfl]
    norm_num
  | binary l =>
    have hlen : l.length ≤ maxStringSize := hv
    show readValueB (5 :: (encodeBE 4 l.length ++ (l ++ rest))) = _
    simp only [readValueB, readN_exact _ (encodeBE_length 4 l.length),
      beVal_encodeBE_of_lt (show l.length < 256 ^ 4 by omega),
      Nat.not_lt.2 hlen, if_false, readN_exact _ rfl]
    norm_num
  | int64 b =>
    simp only [ValueOK] at hv
    show readValueB (2 :: (encodeBE 8 b ++ rest)) = _
    simp only [readValueB, readN_exact _ (encodeBE_length 8 b),
      beVal_encodeBE_of_lt (show b < 256 ^ 8 by omega)]
    norm_num
  | double b =>
    simp only [ValueOK] at hv
    show readValueB (3 :: ((encodeBE 8 b).reverse ++ rest)) = _
    simp only [readValueB,
      readN_exact _ (show (encodeBE 8 b).reverse.length = 8 by simp [encodeBE_length]),
      List.reverse_reverse, beVal_encodeBE_of_lt (show b < 256 ^ 8 by omega)]
    norm_num
  | boolv b =>
    show readValueB (4 :: ([if b then 1 else 0] ++ rest)) = _
    simp only [readValueB, readN_exact _ (show ([if b then (1:Nat) else 0]).length = 1 from rfl)]
    cases b <;> norm_num

theorem putValue_buckets_pos {s : KStore} {k : List Nat} {v : KValue}
    (hb : 0 < s.buckets.length) :
    0 < (kvstorePutValue s k v).2.buckets.length := by
  by_cases hk : k = []
  · rw [show k = [] from hk, putValue_empty]; exact hb
  by_cases hklen : maxStringSize < k.length
  · rw [putValue_toolong v hklen]; exact hb
  cases hfind : findEntry s k (hashKey k) with
  | some e0 =>
    rw [putValue_update hklen hfind]
    simpa using hb
  | none =>
    rw [putValue_insert hk hklen hfind]
    simpa using growIfNeeded_pos hb

/-! ### The load entry loop against an encoded entry stream -/

theorem loadEntries_stream (E : List Entry) (n : Nat) (tail : List Nat) :
    ∀ s : KStore, 0 < s.buckets.length →
    (∀ e ∈ E, e.key ≠ [] ∧ e.key.length ≤ maxStringSize ∧ ValueOK e.value) →
    loadEntries (E.length + n) ((E.map encodeEntry).flatten ++ tail) s =
      loadEntries n tail (List.foldl putStep s E) := by
  induction E with
  | nil => intro s _ _; simp
  | cons e E ih =>
    intro s hb hE
    obtain ⟨hk, hklen, hvv⟩ := hE e (by simp)
    have hkpos : 0 < e.key.length := List.length_pos.2 hk
    have h2564 : (256 : Nat) ^ 4 = 4294967296 := by norm_num
    have hmax : (maxStringSize : Nat) < 4294967296 := by norm_num [maxStringSize]
    have harith : (e :: E).length + n = (E.length + n) + 1 := by simp [Nat.add_right_comm]
    rw [harith]
    have hstream : ((List.map encodeEntry (e :: E)).flatten ++ tail) =
        encodeBE 4 e.key.length ++
          (e.key ++ (encodeValue e.value ++ ((E.map encodeEntry).flatten ++ tail))) := by
      simp [encodeEntry, List.append_assoc]
    rw [hstream]
    have hcond : ¬ (e.key.length = 0 ∨ maxStringSize < e.key.length) := by omega
    rcases hput : kvstorePutValue s e.key e.value with ⟨err, s2⟩
    have herr : err = .ok := by
      have h1 := (putValue_get_self e.value hb hk hklen).1
      rw [hput] at h1
      exact h1
    subst herr
    have hs2 : s2 = putStep s e := by rw [putStep, hput]
    simp only [loadEntries, readN_exact _ (encodeBE_length 4 _),
      beVal_encodeBE_of_lt (show e.key.length < 256 ^ 4 by omega),
      if_neg hcond, readN_exact _ rfl, readValueB_roundtrip hvv, hput]
    rw [hs2, List.foldl_cons]
    exact ih (putStep s e) (by rw [putStep]; exact putValue_buckets_pos hb)
      (fun x hx => hE x (by simp [hx]))

theorem kvstoreLoad_header (s : KStore) (cnt : Nat) (hcnt : cnt < 4294967296)
    (body : List Nat) :
    kvstoreLoad s
      (some (encodeBE 4 magicNumber ++ ([3, 0, 0] ++ (encodeBE 4 cnt ++ body)))) =
      loadEntries cnt body (kvstoreClear s) := by
  have h2564 : (256 : Nat) ^ 4 = 4294967296 := by norm_num
  have hm : (magicNumber : Nat) < 256 ^ 4 := by norm_num [magicNumber]
  simp only [kvstoreLoad, readN_exact _ (encodeBE_length 4 _),
    beVal_encodeBE_of_lt hm,
    readN_exact _ (show ([3, 0, 0] : List Nat).length = 3 from rfl),
    beVal_encodeBE_of_lt (show cnt < 256 ^ 4 by omega)]
  simp

theorem saveBytes_shape (s : KStore) (hcnt : s.entryCount < 2 ^ 32) :
    saveBytes s = encodeBE 4 magicNumber ++
      ([3, 0, 0] ++ (encodeBE 4 s.entryCount ++ ((allEntries s).map encodeEntry).flatten)) := by
  unfold saveBytes
  rw [Nat.mod_eq_of_lt hcnt]
  simp [List.append_assoc]

/-! ### Folding puts of fresh, valid entries -/

theorem foldPut_props (E : List Entry) :
    ∀ t : KStore, WF t →
    (∀ e ∈ E, e.key ≠ [] ∧ e.key.length ≤ maxStringSize ∧ ValueOK e.value) →
    (E.map (·.key)).Nodup →
    (∀ e ∈ E, findEntry t e.key (hashKey e.key) = none) →
    WF (List.foldl putStep t E) ∧
    (List.foldl putStep t E).entryCount = t.entryCount + E.length ∧
    (∀ k2, kvstoreGetValue (List.foldl putStep t E) k2 =
      ((E.find? (fun e => e.key == k2)).map (fun e => Except.ok e.value)).getD
        (kvstoreGetValue t k2)) := by
  induction E with
  | nil =>
    intro t hwf _ _ _
    exact ⟨hwf, by simp, by intro k2; simp [List.find?]⟩
  | cons e E ih =>
    intro t hwf hval hnodup hdisj
    obtain ⟨hk, hklen, hvv⟩ := hval e (by simp)
    have hb := hwf.1
    have hp := hwf.2.2.1
    have hu := hwf.2.2.2.2.1
    have hwf2 : WF (putStep t e) := putValue_wf hwf hvv
    have hkeyE : e.key ∉ E.map (·.key) := (List.nodup_cons.1 hnodup).1
    have hdisj2 : ∀ x ∈ E, findEntry (putStep t e) x.key (hashKey x.key) = none := by
      intro x hx
      have hne : x.key ≠ e.key := by
        intro hc
        exact hkeyE (hc ▸ List.mem_map_of_mem (·.key) hx)
      rw [putStep, putValue_findEntry_frame e.value hp hu hb hne]
      exact hdisj x (by simp [hx])
    have hcount2 : (putStep t e).entryCount = t.entryCount + 1 :=
      putValue_entryCount_insert hk (Nat.not_lt.2 hklen) (hdisj e (by simp))
    obtain ⟨ihwf, ihcount, ihget⟩ := ih (putStep t e) hwf2
      (fun x hx => hval x (by simp [hx])) (List.nodup_cons.1 hnodup).2 hdisj2
    refine ⟨by rw [List.foldl_cons]; exact ihwf, ?_, ?_⟩
    · rw [List.foldl_cons, ihcount, hcount2]
      simp [List.length_cons]
      omega
    · intro k2
      rw [List.foldl_cons, ihget k2]
      by_cases hk2 : e.key = k2
      · have hfE : E.find? (fun x => x.key == k2) = none := by
          rw [List.find?_eq_none]
          intro x hx hc
          have hxk : x.key = k2 := by simpa using hc
          exact hkeyE (by rw [hk2]; rw [← hxk]; exact List.mem_map_of_mem (·.key) hx)
        have hget2 : kvstoreGetValue (putStep t e) k2 = .ok e.value := by
          rw [← hk2, putStep]
          have := (putValue_get_self e.value hb hk hklen).2
          rw [this, copyResult_of_ok hvv]
        rw [hfE, List.find?_cons_of_pos _ (by simpa using hk2)]
        simpa using hget2
      · rw [List.find?_cons_of_neg _ (by simpa using hk2)]
        cases hfE : E.find? (fun x => x.key == k2) with
        | some x => rfl
        | none =>
          show kvstoreGetValue (putStep t e) k2 = kvstoreGetValue t k2
          rw [putStep, putValue_get_frame e.value hp hu hb (fun hc => hk2 hc.symm)]

theorem find?_key_char {E : List Entry} (hnodup : (E.map (·.key)).Nodup)
    {k : List Nat} (e : Entry) :
    E.find? (fun x => x.key == k) = some e ↔ (e ∈ E ∧ e.key = k) := by
  constructor
  · intro hf
    exact ⟨List.mem_of_find?_eq_some hf, by simpa using List.find?_some hf⟩
  · rintro ⟨hmem, hkey⟩
    have hex : (E.find? (fun x => x.key == k)).isSome :=
      List.find?_isSome.2 ⟨e, hmem, by simpa using hkey⟩
    obtain ⟨x, hfx⟩ := Option.isSome_iff_exists.1 hex
    have hxk : x.key = k := by simpa using List.find?_some hfx
    have hxe : x = e := List.inj_on_of_nodup_map hnodup
      (List.mem_of_find?_eq_some hfx) hmem (by rw [hxk, hkey])
    rw [hfx, hxe]

/-! ### The iterator visits the chains in bucket order -/

theorem iterRun_zero (s : KStore) (it : KIter) : iterRun s 0 it = [] := rfl

theorem iterRun_firstFrom (s : KStore) :
    ∀ d i, s.buckets.length - i ≤ d → ∀ fuel,
      (s.buckets.drop i).flatten.length ≤ fuel →
      iterRun s fuel (firstFrom s i) = (s.buckets.drop i).flatten := by
  intro d
  induction d with
  | zero =>
    intro i hd fuel _
    have hge : s.buckets.length ≤ i := by omega
    have hdrop : s.buckets.drop i = [] := List.drop_eq_nil_of_le hge
    rw [firstFrom, dif_neg (by omega), hdrop]
    cases fuel with
    | zero => rfl
    | succ fuel =>
      show (if iterValid s ⟨i, []⟩ then _ else []) = ([] : List (List Entry)).flatten
      rw [if_neg (by simp [iterValid])]
      rfl
  | succ d ihd =>
    intro i hd fuel hfuel
    by_cases hi : i < s.buckets.length
    · have hdrop : s.buckets.drop i = s.buckets.getD i [] :: s.buckets.drop (i + 1) := by
        rw [List.drop_eq_getElem_cons hi]
        congr 1
        simp [List.getD, List.get?_eq_getElem?, List.getElem?_eq_getElem hi]
      by_cases hemp : (s.buckets.getD i []).isEmpty
      · have hnil : s.buckets.getD i [] = [] := List.isEmpty_iff.1 hemp
        rw [firstFrom, dif_pos hi, if_pos hemp]
        have hflat : (s.buckets.drop i).flatten = (s.buckets.drop (i + 1)).flatten := by
          rw [hdrop, hnil]
          rfl
        rw [hflat] at hfuel ⊢
        exact ihd (i + 1) (by omega) fuel hfuel
      · rw [firstFrom, dif_pos hi, if_neg hemp]
        have hflat : (s.buckets.drop i).flatten =
            s.buckets.getD i [] ++ (s.buckets.drop (i + 1)).flatten := by
          rw [hdrop]
          rfl
        have hmid : ∀ c, c ≠ [] → ∀ fuel2,
            c.length + (s.buckets.drop (i + 1)).flatten.length ≤ fuel2 →
            iterRun s fuel2 ⟨i, c⟩ = c ++ (s.buckets.drop (i + 1)).flatten := by
          intro c
          induction c with
          | nil => intro hc; exact absurd rfl hc
          | cons e c ihc =>
            intro _ fuel2 hf2
            cases fuel2 with
            | zero => simp at hf2
            | succ fuel2 =>
              simp only [List.length_cons] at hf2
              show (if iterValid s ⟨i, e :: c⟩ then _ else []) = _
              rw [if_pos (by simp [iterValid, hi])]
              show e :: iterRun s fuel2 (iterNext s ⟨i, e :: c⟩) = _
              by_cases hcc : c = []
              · subst hcc
                have hnext : iterNext s ⟨i, [e]⟩ = firstFrom s (i + 1) := rfl
                rw [hnext, ihd (i + 1) (by omega) fuel2 (by
                  simp only [List.length_nil] at hf2
                  omega)]
                rfl
              · have hnext : iterNext s ⟨i, e :: c⟩ = ⟨i, c⟩ := by
                  simp only [iterNext]
                  rw [if_neg (by simpa using hcc)]
                rw [hnext, ihc hcc fuel2 (by omega)]
                rfl
        rw [hflat] at hfuel ⊢
        exact hmid (s.buckets.getD i []) (by simpa using hemp) fuel
          (by simpa using hfuel)
    · have hge : s.buckets.length ≤ i := by omega
      have hdrop : s.buckets.drop i = [] := List.drop_eq_nil_of_le hge
      rw [firstFrom, dif_neg (by omega), hdrop]
      cases fuel with
      | zero => rfl
      | succ fuel =>
        show (if iterValid s ⟨i, []⟩ then _ else []) = ([] : List (List Entry)).flatten
        rw [if_neg (by simp [iterValid])]
        rfl

theorem iterRun_begin (s : KStore) (fuel : Nat)
    (hfuel : (allEntries s).length ≤ fuel) :
    iterRun s fuel (iterBegin s) = allEntries s := by
  have := iterRun_firstFrom s s.buckets.length 0 (by omega) fuel
    (by simpa [allEntries] using hfuel)
  simpa [iterBegin, allEntries] using this

/-! ### The placement invariant alone, preserved by every operation -/

theorem placed_putValue {s : KStore} (k : List Nat) (v : KValue)
    (hp : Placed s) (hb : 0 < s.buckets.length) :
    Placed (kvstorePutValue s k v).2 := by
  by_cases hk : k = []
  · rw [show k = [] from hk, putValue_empty]; exact hp
  by_cases hklen : maxStringSize < k.length
  · rw [putValue_toolong v hklen]; exact hp
  cases hfind : findEntry s k (hashKey k) with
  | some e0 =>
    have hlt := findEntry_some_idx_lt hfind
    rw [putValue_update hklen hfind]
    intro i hi e he
    simp only [List.length_set] at hi ⊢
    by_cases hidx : i = hashKey k % s.buckets.length
    · subst hidx
      rw [getD_set_self _ _ _ _ hlt] at he
      rcases mem_replaceFirst he with he | ⟨y, hy, _, rfl⟩
      · exact hp _ hi e he
      · exact hp _ hi y hy
    · rw [getD_set_ne _ _ _ _ _ (fun hc => hidx hc.symm)] at he
      exact hp _ hi e he
  | none =>
    have hgpos := @growIfNeeded_pos s hb
    have hpg : Placed (growIfNeeded s) := growIfNeeded_placed hp
    rw [putValue_insert hk hklen hfind]
    intro i hi e he
    simp only [List.length_set] at hi ⊢
    by_cases hidx : i = hashKey k % (growIfNeeded s).buckets.length
    · subst hidx
      rw [getD_set_self _ _ _ _ (Nat.mod_lt _ hgpos)] at he
      rcases List.mem_cons.1 he with rfl | he
      · exact ⟨rfl, rfl⟩
      · exact hpg _ hi e he
    · rw [getD_set_ne _ _ _ _ _ (fun hc => hidx hc.symm)] at he
      exact hpg _ hi e he

theorem placed_deleteKey {s : KStore} (k : List Nat) (hp : Placed s) :
    Placed (kvstoreDeleteKey s k).2 := by
  by_cases hk : k = []
  · simp only [kvstoreDeleteKey, if_pos hk]; exact hp
  by_cases hklen : maxStringSize < k.length
  · simp only [kvstoreDeleteKey, if_neg hk, if_pos hklen]; exact hp
  cases hrem : removeFirstEntry (hashKey k) k
      (s.buckets.getD (hashKey k % s.buckets.length) []) with
  | none =>
    simp only [kvstoreDeleteKey, if_neg hk, if_neg hklen, hrem]
    exact hp
  | some chain2 =>
    have hlt := deleteKey_idx_lt hrem
    obtain ⟨pre, e, post, hchain, _, _, hc2⟩ := removeFirst_some_decomp hrem
    subst hc2
    simp only [kvstoreDeleteKey, if_neg hk, if_neg hklen, hrem]
    intro i hi x hx
    simp only [List.length_set] at hi ⊢
    by_cases hidx : i = hashKey k % s.buckets.length
    · subst hidx
      rw [getD_set_self _ _ _ _ hlt] at hx
      have hxs : x ∈ s.buckets.getD (hashKey k % s.buckets.length) [] := by
        rw [hchain]
        rcases List.mem_append.1 hx with hx | hx
        · simp [hx]
        · simp [hx]
      exact hp _ hi x hxs
    · rw [getD_set_ne _ _ _ _ _ (fun hc => hidx hc.symm)] at hx
      exact hp _ hi x hx

theorem placed_clear (s : KStore) : Placed (kvstoreClear s) := by
  intro i hi e he
  have he2 : e ∈ (List.replicate s.buckets.length ([] : List Entry)).getD i [] := he
  rw [getD_replicate_self] at he2
  simp at he2

theorem placed_loadEntries :
    ∀ (n : Nat) (bs : List Nat) (s : KStore), Placed s → 0 < s.buckets.length →
      Placed (loadEntries n bs s).2 := by
  intro n
  induction n with
  | zero => intro bs s hp _; exact hp
  | succ n ih =>
    intro bs s hp hb
    cases hr1 : readN 4 bs with
    | none =>
      simp only [loadEntries, hr1]
      exact hp
    | some p1 =>
      rcases p1 with ⟨klb, r1⟩
      by_cases hc : beVal klb = 0 ∨ maxStringSize < beVal klb
      · simp only [loadEntries, hr1, if_pos hc]
        exact hp
      · cases hr2 : readN (beVal klb) r1 with
        | none =>
          simp only [loadEntries, hr1, if_neg hc, hr2]
          exact hp
        | some p2 =>
          rcases p2 with ⟨kd, r2⟩
          cases hr3 : readValueB r2 with
          | error e =>
            simp only [loadEntries, hr1, if_neg hc, hr2, hr3]
            exact hp
          | ok p3 =>
            rcases p3 with ⟨v, r3⟩
            rcases hput : kvstorePutValue s kd v with ⟨err, s2⟩
            have hs2p : Placed s2 := by
              have h1 := placed_putValue kd v hp hb
              rw [hput] at h1
              exact h1
            have hs2b : 0 < s2.buckets.length := by
              have h1 := @putValue_buckets_pos s kd v hb
              rw [hput] at h1
              exact h1
            cases err <;> simp only [loadEntries, hr1, if_neg hc, hr2, hr3, hput] <;>
              first
                | exact ih r3 s2 hs2p hs2b
                | exact hs2p

theorem placed_load {s : KStore} (file : Option (List Nat))
    (hp : Placed s) (hb : 0 < s.buckets.length) :
    Placed (kvstoreLoad s file).2 := by
  cases file with
  | none => exact hp
  | some bs =>
    cases hr1 : readN 4 bs with
    | none =>
      simp only [kvstoreLoad, hr1]
      exact hp
    | some p1 =>
      rcases p1 with ⟨mb, r1⟩
      by_cases hm : beVal mb ≠ magicNumber
      · simp only [kvstoreLoad, hr1, if_pos hm]
        exact hp
      · cases hr2 : readN 3 r1 with
        | none =>
          simp only [kvstoreLoad, hr1, if_neg hm, hr2]
          exact hp
        | some p2 =>
          rcases p2 with ⟨vb, r2⟩
          cases hr3 : readN 4 r2 with
          | none =>
            simp only [kvstoreLoad, hr1, if_neg hm, hr2, hr3]
            exact hp
          | some p3 =>
            rcases p3 with ⟨cb, r3⟩
            simp only [kvstoreLoad, hr1, if_neg hm, hr2, hr3]
            exact placed_loadEntries _ _ _ (placed_clear s)
              (by rw [clear_buckets_length]; exact hb)

/-! ### Claims -/

/-- C1: for every store (with a non-empty bucket array, as every store
built by kvstore_create has), every non-empty key of at most 1 MiB and
every value of one of the six variants whose string/binary payload is
at most 1 MiB, a successful kvstore_put_value followed by
kvstore_get_value returns a value equal to the stored one bit-for-bit
(payload lists, 64-bit patterns and bool compared by equality of the
model, which is bit equality). -/
theorem c1_put_then_get (s : KStore) (k : List Nat) (v : KValue)
    (hb : 0 < s.buckets.length) (hk : k ≠ []) (hklen : k.length ≤ maxStringSize)
    (hv : ValueOK v) :
    (kvstorePutValue s k v).1 = .ok ∧
    kvstoreGetValue (kvstorePutValue s k v).2 k = .ok v := by
  have h := putValue_get_self v hb hk hklen
  exact ⟨h.1, by rw [h.2, copyResult_of_ok hv]⟩

theorem c1_witness :
    0 < (kvstoreCreate 16).buckets.length ∧ ([97] : List Nat) ≠ [] ∧
    ([97] : List Nat).length ≤ maxStringSize ∧ ValueOK (KValue.int64 5) ∧
    (kvstorePutValue (kvstoreCreate 16) [97] (.int64 5)).1 = .ok ∧
    kvstoreGetValue (kvstorePutValue (kvstoreCreate 16) [97] (.int64 5)).2 [97] =
      .ok (.int64 5) := by
  refine ⟨by decide, by decide, by decide, by decide, ?_, ?_⟩
  · exact (c1_put_then_get (kvstoreCreate 16) [97] (.int64 5)
      (by decide) (by decide) (by decide) (by decide)).1
  · exact (c1_put_then_get (kvstoreCreate 16) [97] (.int64 5)
      (by decide) (by decide) (by decide) (by decide)).2

/-- C3 counterexample: kvstore_put_value does NOT reject a string
value whose payload exceeds 1 MiB with StringTooLarge; the copy
silently degrades the value to the NULL variant,
the put returns OK and the store gains an entry (contents changed). -/
theorem c3_counterexample :
    (kvstorePutValue (kvstoreCreate 16) [97]
      (.str (List.replicate (2 ^ 20 + 1) 0))).1 = .ok ∧
    (kvstorePutValue (kvstoreCreate 16) [97]
      (.str (List.replicate (2 ^ 20 + 1) 0))).2.entryCount = 1 ∧
    kvstoreGetValue (kvstorePutValue (kvstoreCreate 16) [97]
      (.str (List.replicate (2 ^ 20 + 1) 0))).2 [97] = .ok .nullv := by
  have hk : ([97] : List Nat) ≠ [] := by decide
  have hklen : ¬ maxStringSize < ([97] : List Nat).length := by decide
  have hlen : (List.replicate (2 ^ 20 + 1) (0 : Nat)).length = 2 ^ 20 + 1 :=
    List.length_replicate _ _
  have hfind : findEntry (kvstoreCreate 16) [97] (hashKey [97]) = none := by
    unfold findEntry
    rw [if_neg hk]
    show ((List.replicate (nextPowerOfTwo 16) []).getD _ []).find? _ = none
    rw [getD_replicate_self]
    rfl
  have hcopy : copyResult (.str (List.replicate (2 ^ 20 + 1) 0)) = .nullv := by
    simp only [copyResult, hlen]
    rw [if_pos (by norm_num [maxStringSize])]
  refine ⟨?_, ?_, ?_⟩
  · rw [putValue_insert hk hklen hfind]
  · rw [putValue_insert hk hklen hfind]
    show (growIfNeeded (kvstoreCreate 16)).entryCount + 1 = 1
    rw [growIfNeeded_entryCount]
    rfl
  · have h := (putValue_get_self (.str (List.replicate (2 ^ 20 + 1) 0))
      (show 0 < (kvstoreCreate 16).buckets.length by decide) hk
      (show ([97] : List Nat).length ≤ maxStringSize by decide)).2
    rw [h, hcopy]

/-- C3 amended: kvstore_put_value rejects a NULL/empty key with
InvalidKey and an oversized key with StringTooLarge, leaving the store
unchanged; the oversized-VALUE rejection with StringTooLarge happens
only in the typed wrappers kvstore_put_string / kvstore_put_binary
(again leaving the store unchanged), while kvstore_put_value itself
accepts an oversized payload, stores a NULL value and returns OK (see
the counterexample). -/
theorem c3_put_rejections :
    (∀ (s : KStore) (v : KValue), kvstorePutValue s [] v = (.invalidKey, s)) ∧
    (∀ (s : KStore) (k : List Nat) (v : KValue), maxStringSize < k.length →
      kvstorePutValue s k v = (.stringTooLarge, s)) ∧
    (∀ (s : KStore) (k val : List Nat), maxStringSize < val.length →
      kvstorePutString s k val = (.stringTooLarge, s)) ∧
    (∀ (s : KStore) (k val : List Nat), maxStringSize < val.length →
      kvstorePutBinary s k val = (.stringTooLarge, s)) := by
  refine ⟨fun s v => putValue_empty s v, fun s k v h => putValue_toolong v h, ?_, ?_⟩
  · intro s k val h
    unfold kvstorePutString
    rw [if_pos (Or.inr h)]
  · intro s k val h
    unfold kvstorePutBinary
    rw [if_pos (Or.inr h)]

theorem c3_witness :
    maxStringSize < (List.replicate (2 ^ 20 + 1) (0 : Nat)).length ∧
    kvstorePutValue (kvstoreCreate 16) [] (.int64 1) = (.invalidKey, kvstoreCreate 16) ∧
    kvstorePutValue (kvstoreCreate 16) (List.replicate (2 ^ 20 + 1) 0) .nullv =
      (.stringTooLarge, kvstoreCreate 16) ∧
    kvstorePutString (kvstoreCreate 16) [97] (List.replicate (2 ^ 20 + 1) 0) =
      (.stringTooLarge, kvstoreCreate 16) ∧
    kvstorePutBinary (kvstoreCreate 16) [97] (List.replicate (2 ^ 20 + 1) 0) =
      (.stringTooLarge, kvstoreCreate 16) := by
  have hlen : maxStringSize < (List.replicate (2 ^ 20 + 1) (0 : Nat)).length := by
    rw [List.length_replicate]
    norm_num [maxStringSize]
  exact ⟨hlen, c3_put_rejections.1 _ _, c3_put_rejections.2.1 _ _ _ hlen,
    c3_put_rejections.2.2.1 _ _ _ hlen, c3_put_rejections.2.2.2 _ _ _ hlen⟩

/-- C4 counterexample: the ratio can be exactly 0.75 after a
successful put, so strictly-less fails.  Twelve puts of distinct
single-byte keys into a fresh 16-bucket table: the twelfth put
succeeds and leaves entry_count * 4 = bucket_count * 3 (load factor
exactly 0.75, not below it). -/
theorem c4_counterexample :
    (kvstorePutValue ((List.range 11).foldl
        (fun t i => (kvstorePutValue t [i] (.int64 0)).2) (kvstoreCreate 16))
      [11] (.int64 0)).1 = .ok ∧
    ¬ (4 * (kvstorePutValue ((List.range 11).foldl
        (fun t i => (kvstorePutValue t [i] (.int64 0)).2) (kvstoreCreate 16))
      [11] (.int64 0)).2.entryCount <
        3 * (kvstorePutValue ((List.range 11).foldl
        (fun t i => (kvstorePutValue t [i] (.int64 0)).2) (kvstoreCreate 16))
      [11] (.int64 0)).2.buckets.length) ∧
    4 * (kvstorePutValue ((List.range 11).foldl
        (fun t i => (kvstorePutValue t [i] (.int64 0)).2) (kvstoreCreate 16))
      [11] (.int64 0)).2.entryCount =
      3 * (kvstorePutValue ((List.range 11).foldl
        (fun t i => (kvstorePutValue t [i] (.int64 0)).2) (kvstoreCreate 16))
      [11] (.int64 0)).2.buckets.length := by decide

/-- C4 amended: after any successful put under the table invariants
the load factor is at most 0.75 (equality is reachable, see the
counterexample); the strict bound holds at the moment before each
insertion, and when an insertion of a new key finds the load factor at
or above 0.75 the table first grows to twice the bucket count. -/
theorem c4_load_factor (s : KStore) (k : List Nat) (v : KValue)
    (hwf : WF s) (hv : ValueOK v) :
    4 * (kvstorePutValue s k v).2.entryCount ≤
      3 * (kvstorePutValue s k v).2.buckets.length ∧
    (k ≠ [] → k.length ≤ maxStringSize → findEntry s k (hashKey k) = none →
      3 * s.buckets.length ≤ 4 * s.entryCount →
      (kvstorePutValue s k v).2.buckets.length = 2 * s.buckets.length) := by
  constructor
  · exact (putValue_wf hwf hv).2.2.2.2.2.2
  · intro hk hklen hfind hcond
    rw [putValue_insert hk (Nat.not_lt.2 hklen) hfind]
    simp only [List.length_set]
    rw [growIfNeeded_length, if_pos]
    simp only [loadFactorAtLeastMax, Bool.and_eq_true, decide_eq_true_eq]
    exact ⟨hwf.1, hcond⟩

theorem c4_witness :
    WF ((List.range 12).foldl
      (fun t i => (kvstorePutValue t [i] (.int64 0)).2) (kvstoreCreate 16)) ∧
    ValueOK (KValue.int64 7) ∧
    4 * (kvstorePutValue ((List.range 12).foldl
        (fun t i => (kvstorePutValue t [i] (.int64 0)).2) (kvstoreCreate 16))
      [12] (.int64 7)).2.entryCount ≤
      3 * (kvstorePutValue ((List.range 12).foldl
        (fun t i => (kvstorePutValue t [i] (.int64 0)).2) (kvstoreCreate 16))
      [12] (.int64 7)).2.buckets.length ∧
    (kvstorePutValue ((List.range 12).foldl
        (fun t i => (kvstorePutValue t [i] (.int64 0)).2) (kvstoreCreate 16))
      [12] (.int64 7)).2.buckets.length =
      2 * ((List.range 12).foldl
        (fun t i => (kvstorePutValue t [i] (.int64 0)).2) (kvstoreCreate 16)).buckets.length := by
  refine ⟨by decide, by decide, ?_, ?_⟩
  · exact (c4_load_factor _ [12] (.int64 7) (by decide) (by decide)).1
  · exact (c4_load_factor _ [12] (.int64 7) (by decide) (by decide)).2
      (by decide) (by decide) (by decide) (by decide)

/-- C5: the placement invariant (every entry e in bucket i has
e.hash = fnv1a(e.key) and e.hash mod B = i) is preserved by put,
delete, clear, resize to 2B, and load. -/
theorem c5_placement_invariant (s : KStore) (k : List Nat) (v : KValue)
    (file : Option (List Nat)) (hb : 0 < s.buckets.length) (hp : Placed s) :
    Placed (kvstorePutValue s k v).2 ∧
    Placed (kvstoreDeleteKey s k).2 ∧
    Placed (kvstoreClear s) ∧
    Placed (resizeTable s (2 * s.buckets.length)) ∧
    Placed (kvstoreLoad s file).2 :=
  ⟨placed_putValue k v hp hb, placed_deleteKey k hp, placed_clear s,
    resizeTable_placed _ (by omega) hp, placed_load file hp hb⟩

theorem c5_witness :
    0 < (kvstorePutValue (kvstoreCreate 16) [97] (.int64 5)).2.buckets.length ∧
    Placed (kvstorePutValue (kvstoreCreate 16) [97] (.int64 5)).2 ∧
    Placed (kvstorePutValue (kvstorePutValue (kvstoreCreate 16) [97] (.int64 5)).2
      [98] (.boolv true)).2 ∧
    Placed (kvstoreDeleteKey (kvstorePutValue (kvstoreCreate 16) [97] (.int64 5)).2 [97]).2 := by
  refine ⟨by decide, by decide, ?_, ?_⟩
  · exact (c5_placement_invariant (kvstorePutValue (kvstoreCreate 16) [97] (.int64 5)).2
      [98] (.boolv true) none (by decide) (by decide)).1
  · exact (c5_placement_invariant (kvstorePutValue (kvstoreCreate 16) [97] (.int64 5)).2
      [97] (.boolv true) none (by decide) (by decide)).2.1

/-- C2: for a well-formed store whose entry count fits in the u32
entry-count field, writing the snapshot, clearing, and loading it back
succeeds, restores every key to the same typed value, and leaves
size() unchanged.  The host-endian double field is symmetric on a
single host, so all six variants round-trip. -/
theorem c2_save_clear_load (s : KStore) (hwf : WF s) (hcnt : s.entryCount < 2 ^ 32) :
    (kvstoreLoad (kvstoreClear s) (some (saveBytes s))).1 = .ok ∧
    (kvstoreLoad (kvstoreClear s) (some (saveBytes s))).2.entryCount = s.entryCount ∧
    ∀ k, kvstoreGetValue (kvstoreLoad (kvstoreClear s) (some (saveBytes s))).2 k =
      kvstoreGetValue s k := by
  have hb := hwf.1
  have hp := hwf.2.2.1
  have hval := hwf.2.2.2.1
  have hu := hwf.2.2.2.2.1
  have hcount := hwf.2.2.2.2.2.1
  have hclear2 : WF (kvstoreClear (kvstoreClear s)) := clear_wf (clear_wf hwf)
  have h32 : (2 : Nat) ^ 32 = 4294967296 := by norm_num
  have hload : kvstoreLoad (kvstoreClear s) (some (saveBytes s)) =
      loadEntries s.entryCount (((allEntries s).map encodeEntry).flatten)
        (kvstoreClear (kvstoreClear s)) := by
    rw [saveBytes_shape s hcnt, kvstoreLoad_header _ _ (by omega)]
  have hbt0 : 0 < (kvstoreClear (kvstoreClear s)).buckets.length := by
    rw [clear_buckets_length, clear_buckets_length]
    exact hb
  have hvalE : ∀ e ∈ allEntries s,
      e.key ≠ [] ∧ e.key.length ≤ maxStringSize ∧ ValueOK e.value := hval
  have hnodupE : ((allEntries s).map (·.key)).Nodup := hu
  have hstream : loadEntries s.entryCount (((allEntries s).map encodeEntry).flatten)
      (kvstoreClear (kvstoreClear s)) =
      (.ok, List.foldl putStep (kvstoreClear (kvstoreClear s)) (allEntries s)) := by
    have h1 := loadEntries_stream (allEntries s) 0 [] (kvstoreClear (kvstoreClear s))
      hbt0 hvalE
    rw [List.append_nil] at h1
    rw [hcount]
    simpa using h1
  obtain ⟨fwf, fcountP, fget⟩ := foldPut_props (allEntries s) (kvstoreClear (kvstoreClear s))
    hclear2 hvalE hnodupE (fun e _ => clear_findEntry _ _ _)
  rw [hload, hstream]
  refine ⟨rfl, ?_, ?_⟩
  · show (List.foldl putStep _ _).entryCount = s.entryCount
    rw [fcountP, clear_entryCount]
    omega
  · intro k
    show kvstoreGetValue (List.foldl putStep _ _) k = kvstoreGetValue s k
    rw [fget k]
    cases hfq : (allEntries s).find? (fun x => x.key == k) with
    | some e =>
      obtain ⟨hmem, hkey⟩ := (find?_key_char hnodupE e).1 hfq
      obtain ⟨hk, hklen, _⟩ := hval e hmem
      have hk2 : k ≠ [] := hkey ▸ hk
      have hklen2 : k.length ≤ maxStringSize := hkey ▸ hklen
      have hfs : findEntry s k (hashKey k) = some e :=
        (findEntry_char hp hu hk2 e).2 ⟨hmem, hkey⟩
      have hred : ((Option.map (fun x => (Except.ok x.value : Except KVError KValue))
          (some e)).getD (kvstoreGetValue (kvstoreClear (kvstoreClear s)) k)) =
          Except.ok e.value := rfl
      rw [hred]
      unfold kvstoreGetValue
      rw [if_neg hk2, if_neg (Nat.not_lt.2 hklen2), hfs]
    | none =>
      show kvstoreGetValue (kvstoreClear (kvstoreClear s)) k = kvstoreGetValue s k
      by_cases hk2 : k = []
      · subst hk2
        rfl
      by_cases hklen2 : maxStringSize < k.length
      · unfold kvstoreGetValue
        rw [if_neg hk2, if_pos hklen2, if_neg hk2, if_pos hklen2]
      · have hfs : findEntry s k (hashKey k) = none := by
          cases hfe : findEntry s k (hashKey k) with
          | none => rfl
          | some e =>
            obtain ⟨hmem, hkey⟩ := (findEntry_char hp hu hk2 e).1 hfe
            have hcontra := (find?_key_char hnodupE e).2 ⟨hmem, hkey⟩
            rw [hfq] at hcontra
            cases hcontra
        unfold kvstoreGetValue
        rw [if_neg hk2, if_neg hklen2, if_neg hk2, if_neg hklen2, hfs, clear_findEntry]

theorem c2_witness :
    WF (kvstorePutValue (kvstoreCreate 16) [97] (.int64 5)).2 ∧
    (kvstorePutValue (kvstoreCreate 16) [97] (.int64 5)).2.entryCount < 2 ^ 32 ∧
    (kvstoreLoad (kvstoreClear (kvstorePutValue (kvstoreCreate 16) [97] (.int64 5)).2)
      (some (saveBytes (kvstorePutValue (kvstoreCreate 16) [97] (.int64 5)).2))).1 = .ok ∧
    kvstoreGetValue
      (kvstoreLoad (kvstoreClear (kvstorePutValue (kvstoreCreate 16) [97] (.int64 5)).2)
        (some (saveBytes (kvstorePutValue (kvstoreCreate 16) [97] (.int64 5)).2))).2 [97] =
      kvstoreGetValue (kvstorePutValue (kvstoreCreate 16) [97] (.int64 5)).2 [97] := by
  refine ⟨by decide, by decide, ?_, ?_⟩
  · exact (c2_save_clear_load (kvstorePutValue (kvstoreCreate 16) [97] (.int64 5)).2
      (by decide) (by decide)).1
  · exact (c2_save_clear_load (kvstorePutValue (kvstoreCreate 16) [97] (.int64 5)).2
      (by decide) (by decide)).2.2 [97]

/-- C6 counterexample: a wrong-magic load does NOT leave the engine
empty when it was non-empty before: the magic check runs before
kvstore_clear, so the prior contents survive.  Here a store holding
one entry still has size 1 after the failed load. -/
theorem c6_counterexample :
    (kvstoreLoad (kvstorePutValue (kvstoreCreate 16) [97] (.int64 5)).2
      (some [0, 0, 0, 0])).1 = .invalidFormat ∧
    (kvstoreLoad (kvstorePutValue (kvstoreCreate 16) [97] (.int64 5)).2
      (some [0, 0, 0, 0])).2.entryCount = 1 := by decide

/-- C6 amended: a snapshot whose first four bytes do not decode
big-endian to 0x4B56DB02 makes kvstore_load return InvalidFormat with
the store left exactly as it was (so it is empty afterwards only if it
was empty before; nothing is cleared). -/
theorem c6_wrong_magic (s : KStore) (bs : List Nat) (h4 : 4 ≤ bs.length)
    (hm : beVal (bs.take 4) ≠ magicNumber) :
    kvstoreLoad s (some bs) = (.invalidFormat, s) := by
  have hr : readN 4 bs = some (bs.take 4, bs.drop 4) := by
    unfold readN
    rw [if_pos h4]
  simp only [kvstoreLoad, hr, if_pos hm]

theorem c6_witness :
    4 ≤ ([0, 0, 0, 0] : List Nat).length ∧
    beVal (([0, 0, 0, 0] : List Nat).take 4) ≠ magicNumber ∧
    kvstoreLoad (kvstoreCreate 16) (some [0, 0, 0, 0]) =
      (.invalidFormat, kvstoreCreate 16) := by
  exact ⟨by decide, by decide, c6_wrong_magic (kvstoreCreate 16) [0, 0, 0, 0]
    (by decide) (by decide)⟩

/-- C7 counterexample: a snapshot with the right magic that declares
two entries but ends after the first makes kvstore_load return the I/O
error while KEEPING the decoded prefix: size() is 1 afterwards, not 0.
The bytes are magic 4B 56 DB 02, version 3.0.0, count 2, then one
entry (key length 1, key byte 97, NULL value tag). -/
theorem c7_counterexample :
    (kvstoreLoad (kvstoreCreate 16)
      (some [75, 86, 219, 2, 3, 0, 0, 0, 0, 0, 2, 0, 0, 0, 1, 97, 0])).1 = .ioErr ∧
    (kvstoreLoad (kvstoreCreate 16)
      (some [75, 86, 219, 2, 3, 0, 0, 0, 0, 0, 2, 0, 0, 0, 1, 97, 0])).2.entryCount = 1 := by
  decide

/-- C7 amended: a well-formed stream that declares n entries but
carries only the encodings of a shorter entry list E makes
kvstore_load return the I/O error with the engine holding exactly the
entries decoded before the short read (the puts of E applied to the
cleared engine) - it is not rolled back to empty. -/
theorem c7_truncated_load (s : KStore) (E : List Entry) (n : Nat)
    (hb : 0 < s.buckets.length) (hn : E.length < n) (hn32 : n < 4294967296)
    (hE : ∀ e ∈ E, e.key ≠ [] ∧ e.key.length ≤ maxStringSize ∧ ValueOK e.value) :
    kvstoreLoad s (some (encodeBE 4 magicNumber ++ ([3, 0, 0] ++ (encodeBE 4 n ++
        (E.map encodeEntry).flatten)))) =
      (.ioErr, List.foldl putStep (kvstoreClear s) E) := by
  rw [kvstoreLoad_header s n hn32]
  have hsplit : n = E.length + (n - E.length) := by omega
  rw [hsplit, ← List.append_nil ((E.map encodeEntry).flatten),
    loadEntries_stream E (n - E.length) [] (kvstoreClear s)
      (by rw [clear_buckets_length]; exact hb) hE]
  have hm : n - E.length = (n - E.length - 1) + 1 := by omega
  rw [hm]
  show loadEntries (_ + 1) [] _ = _
  simp [loadEntries, readN]

theorem c7_witness :
    0 < (kvstoreCreate 16).buckets.length ∧
    ([(⟨[97], .nullv, hashKey [97]⟩ : Entry)].length < 2) ∧
    ((2 : Nat) < 4294967296) ∧
    (∀ e ∈ [(⟨[97], .nullv, hashKey [97]⟩ : Entry)],
      e.key ≠ [] ∧ e.key.length ≤ maxStringSize ∧ ValueOK e.value) ∧
    kvstoreLoad (kvstoreCreate 16) (some (encodeBE 4 magicNumber ++ ([3, 0, 0] ++
        (encodeBE 4 2 ++ ([(⟨[97], .nullv, hashKey [97]⟩ : Entry)].map encodeEntry).flatten)))) =
      (.ioErr, List.foldl putStep (kvstoreClear (kvstoreCreate 16))
        [(⟨[97], .nullv, hashKey [97]⟩ : Entry)]) := by
  refine ⟨by decide, by decide, by decide, by decide, ?_⟩
  exact c7_truncated_load (kvstoreCreate 16) [(⟨[97], .nullv, hashKey [97]⟩ : Entry)] 2
    (by decide) (by decide) (by decide) (by decide)

/-- C8 counterexample: at the engine level (kvstore_load, the API
consumed by auto-load), loading from a missing file is an error: the
call reports KVSTORE_ERROR_IO, not success. -/
theorem c8_counterexample :
    (kvstoreLoad (kvstoreCreate 16) none).1 = .ioErr ∧
    (kvstoreLoad (kvstoreCreate 16) none).1 ≠ .ok := by decide

/-- C8 amended: kvstore_load reports the I/O error for a missing file
and leaves the store untouched (a fresh engine stays empty); the
auto-load caller kvapi_init specifically tolerates the I/O error
(every other failure aborts initialization), so the missing file is
non-fatal there and the engine simply remains empty. -/
theorem c8_missing_file (s : KStore) :
    kvstoreLoad s none = (.ioErr, s) ∧ kvapiInitFails .ioErr = false :=
  ⟨rfl, rfl⟩

/-- C9: deleting a key that find_entry locates unlinks exactly that
entry from its chain (the chain splits as pre ++ e :: post with no
match in pre, and becomes pre ++ post), decrements entry_count by one,
and leaves every other bucket and the whole arena untouched; deleting
an absent valid key returns KeyNotFound with the store unchanged. -/
theorem c9_delete (s : KStore) (k : List Nat) (hk : k ≠ [])
    (hklen : k.length ≤ maxStringSize) :
    (findEntry s k (hashKey k) = none → kvstoreDeleteKey s k = (.keyNotFound, s)) ∧
    (∀ e0, findEntry s k (hashKey k) = some e0 →
      (kvstoreDeleteKey s k).1 = .ok ∧
      (kvstoreDeleteKey s k).2.entryCount = s.entryCount - 1 ∧
      (kvstoreDeleteKey s k).2.arena = s.arena ∧
      (∀ j, j ≠ hashKey k % s.buckets.length →
        (kvstoreDeleteKey s k).2.buckets.getD j [] = s.buckets.getD j []) ∧
      ∃ pre post,
        s.buckets.getD (hashKey k % s.buckets.length) [] = pre ++ e0 :: post ∧
        (∀ x ∈ pre, ¬ entryMatches (hashKey k) k x = true) ∧
        (kvstoreDeleteKey s k).2.buckets.getD (hashKey k % s.buckets.length) [] =
          pre ++ post) := by
  have hklen2 : ¬ maxStringSize < k.length := Nat.not_lt.2 hklen
  constructor
  · intro hfind
    exact deleteKey_absent hk hklen2 hfind
  · intro e0 hfind
    obtain ⟨chain2, hrem, hshape⟩ := deleteKey_present hklen2 hfind
    have hlt := deleteKey_idx_lt hrem
    obtain ⟨pre, e, post, hchain, hme, hpre, hc2⟩ := removeFirst_some_decomp hrem
    have hfq : List.find? (entryMatches (hashKey k) k)
        (s.buckets.getD (hashKey k % s.buckets.length) []) = some e0 := by
      unfold findEntry at hfind
      rw [if_neg hk] at hfind
      exact hfind
    have hee0 : e = e0 := by
      have hfirst := find?_append_decomp (entryMatches (hashKey k) k) pre post e hpre hme
      rw [hchain, hfirst] at hfq
      exact Option.some.inj hfq
    subst hee0
    rw [hshape]
    refine ⟨rfl, rfl, rfl, ?_, pre, post, hchain, hpre, ?_⟩
    · intro j hj
      exact getD_set_ne _ _ _ _ _ (fun hc => hj hc.symm)
    · rw [getD_set_self _ _ _ _ hlt]
      exact hc2

theorem c9_witness :
    ([97] : List Nat) ≠ [] ∧ ([97] : List Nat).length ≤ maxStringSize ∧
    (kvstoreDeleteKey (kvstorePutValue (kvstoreCreate 16) [97] (.int64 5)).2 [97]).1 = .ok ∧
    (kvstoreDeleteKey (kvstorePutValue (kvstoreCreate 16) [97] (.int64 5)).2 [97]).2.arena =
      (kvstorePutValue (kvstoreCreate 16) [97] (.int64 5)).2.arena ∧
    (kvstoreDeleteKey (kvstorePutValue (kvstoreCreate 16) [97] (.int64 5)).2
      [97]).2.entryCount = 0 := by
  have h := (c9_delete (kvstorePutValue (kvstoreCreate 16) [97] (.int64 5)).2 [97]
    (by decide) (by decide)).2 ⟨[97], .int64 5, hashKey [97]⟩ (by decide)
  exact ⟨by decide, by decide, h.1, h.2.2.1, h.2.1.trans (by decide)⟩

/-- C10: for a well-formed store, the begin/valid/next iterator loop,
given a step budget of size() (which is exactly how many steps the C
loop takes), visits the live entries exactly once, in bucket order:
the visit list equals the concatenation of the chains and its length
is size(). -/
theorem c10_iteration (s : KStore) (hwf : WF s) :
    iterRun s s.entryCount (iterBegin s) = allEntries s ∧
    (iterRun s s.entryCount (iterBegin s)).length = s.entryCount := by
  have hcount := hwf.2.2.2.2.2.1
  have h := iterRun_begin s s.entryCount (le_of_eq hcount.symm)
  exact ⟨h, by rw [h, ← hcount]⟩

theorem c10_witness :
    WF (kvstorePutValue (kvstorePutValue (kvstoreCreate 16) [97] (.int64 5)).2
      [98, 99] (.str [1, 2, 3])).2 ∧
    iterRun (kvstorePutValue (kvstorePutValue (kvstoreCreate 16) [97] (.int64 5)).2
        [98, 99] (.str [1, 2, 3])).2
      (kvstorePutValue (kvstorePutValue (kvstoreCreate 16) [97] (.int64 5)).2
        [98, 99] (.str [1, 2, 3])).2.entryCount
      (iterBegin (kvstorePutValue (kvstorePutValue (kvstoreCreate 16) [97] (.int64 5)).2
        [98, 99] (.str [1, 2, 3])).2) =
      allEntries (kvstorePutValue (kvstorePutValue (kvstoreCreate 16) [97] (.int64 5)).2
        [98, 99] (.str [1, 2, 3])).2 := by
  refine ⟨by decide, ?_⟩
  exact (c10_iteration (kvstorePutValue (kvstorePutValue (kvstoreCreate 16) [97]
    (.int64 5)).2 [98, 99] (.str [1, 2, 3])).2 (by decide)).1

end KV
